import Mathlib

/-!
# Verification of the Timetable-App normalization and calendar core

Shallow embedding of `src/app/utils/calendar_generator.py` and
`src/app/utils/parser.py` (yawdotio/Timetable-App), together with proofs
settling the frozen claims about the specification.

Python dictionaries holding event records are modelled as a structure of
optional fields; `None` and "key absent" are both modelled as `Option.none`
(the code under scrutiny treats them alike except where noted in comments).
Strings are manipulated through their character lists.  Machine-level
concerns (interning, unicode width) play no role in the claims.
-/

namespace Timetable

/-! ## Character/string helpers (Python `str` semantics used by the code) -/

/-- Decidable list-prefix test (Python's implicit prefix matching in `re.match`). -/
def startsWithL : List Char → List Char → Bool
  | [], _ => true
  | _ :: _, [] => false
  | a :: as, b :: bs => a == b && startsWithL as bs

/-- Substring containment, Python's `needle in haystack` on `str`. -/
def hasSubstr (needle : List Char) : List Char → Bool
  | [] => startsWithL needle []
  | h :: t => startsWithL needle (h :: t) || hasSubstr needle t

/-- The whitespace class of Python's `\s` (ASCII part; the inputs at issue
contain only plain spaces). -/
def isPySpace (c : Char) : Bool :=
  c == ' ' || c == '\t' || c == '\n' || c == '\r' || c == '\x0b' || c == '\x0c'

/-- `str.strip()` on ASCII whitespace. -/
def pyStrip (s : String) : String :=
  ⟨(s.data.dropWhile isPySpace).reverse.dropWhile isPySpace |>.reverse⟩

/-- Lowercasing, Python `str.lower()` (ASCII letters suffice here). -/
def pyLower (s : String) : String := ⟨s.data.map Char.toLower⟩

/-- Python `int(s)` on the digit-only strings produced by the time regexes. -/
def digitsToNat? (l : List Char) : Option Nat :=
  if l ≠ [] ∧ l.all Char.isDigit then
    some (l.foldl (fun n c => n * 10 + (c.toNat - 48)) 0)
  else none

/-! ## The event record model

`EventRecord` models the event dictionaries consumed by
`CalendarGenerator` (`date`, `time`, `title`, `location`, `description`,
`end_time`, `recurring`, `reminder_minutes`). -/

structure EventRecord where
  date : Option String
  title : Option String
  location : Option String
  time : Option String
  endTime : Option String
  description : Option String
  recurring : Option String
  reminder : Option Int
deriving DecidableEq, Repr

/-- `f"{event.get('date')}|||{event.get('title')}|||{event.get('location', 'no-location')}"`:
the grouping key of `_merge_adjacent_events` (line 75).  Python renders a
missing/None value as `"None"` inside an f-string, while the location
lookup supplies the default `'no-location'`. -/
def mergeKey (e : EventRecord) : String :=
  (e.date.getD "None") ++ "|||" ++ (e.title.getD "None") ++ "|||" ++
    (e.location.getD "no-location")

/-- Rewriting the `time` field of a merged run (line 123). -/
def setTime (e : EventRecord) (t : String) : EventRecord := { e with time := some t }

@[simp] theorem mergeKey_setTime (e : EventRecord) (t : String) :
    mergeKey (setTime e t) = mergeKey e := rfl

/-! ## `parse_time_range` (calendar_generator.py lines 33-48)

`re.match(r'(\d{1,2}:\d{2})\s*-\s*(\d{1,2}:\d{2})', s)` followed by a
single-time fallback `re.match(r'(\d{1,2}:\d{2})', s)`.  `re.match`
anchors at the start and ignores trailing text.  The `\d{1,2}` group is
greedy, but no cross-backtracking can occur: a two-digit hour match and a
one-digit hour match can never both succeed on the same input (the second
character would have to be both a digit and `':'`). -/

/-- Match a leading `\d{1,2}:\d{2}`; returns the matched characters and
the remainder. -/
def parseHHMM (l : List Char) : Option (List Char × List Char) :=
  match l with
  | a :: rest1 =>
    if a.isDigit then
      match rest1 with
      | b :: c :: m1 :: m2 :: rest3 =>
        if b.isDigit && (c == ':') && m1.isDigit && m2.isDigit then
          some ([a, b, c, m1, m2], rest3)
        else oneDigit a rest1
      | _ => oneDigit a rest1
    else none
  | [] => none
where
  /-- The backtracked one-digit-hour alternative `\d:\d{2}`. -/
  oneDigit (a : Char) : List Char → Option (List Char × List Char)
    | c :: m1 :: m2 :: rest =>
      if (c == ':') && m1.isDigit && m2.isDigit then
        some ([a, c, m1, m2], rest)
      else none
    | _ => none

/-- The parsed `{'start': ..., 'end': ...}` dictionary; `stop` models the
`'end'` entry. -/
structure PTime where
  start : List Char
  stop : Option (List Char)
deriving DecidableEq, Repr

def parseTimeRangeChars (l : List Char) : Option PTime :=
  match parseHHMM l with
  | none => none
  | some (s, rest) =>
    match rest.dropWhile isPySpace with
    | '-' :: r2 =>
      match parseHHMM (r2.dropWhile isPySpace) with
      | some (e, _) => some ⟨s, some e⟩
      | none => some ⟨s, none⟩
    | _ => some ⟨s, none⟩

/-- `parse_time_range` proper: `if not time_str: return None`, then the
regex matching. -/
def parseTimeRange (s : String) : Option PTime :=
  if s = "" then none else parseTimeRangeChars s.data

/-- Character lists exactly of shape `\d{1,2}:\d{2}` — what the regex
groups (and hence merged time fields) consist of. -/
def wfTime (l : List Char) : Prop :=
  (∃ a c d, l = [a, ':', c, d] ∧ a.isDigit = true ∧ c.isDigit = true ∧ d.isDigit = true) ∨
  (∃ a b c d, l = [a, b, ':', c, d] ∧ a.isDigit = true ∧ b.isDigit = true ∧
    c.isDigit = true ∧ d.isDigit = true)

/-! ## `time_to_minutes` and `can_merge_times` (lines 50-70) -/

/-- `h, m = map(int, time_str.split(':')); h * 60 + m`, with the
`try/except` returning `None` on any failure (wrong number of `:`-parts
or non-digit parts). -/
def timeToMinutes (l : List Char) : Option Nat :=
  if l.isEmpty then none
  else
    match l.splitOn ':' with
    | [a, b] =>
      match digitsToNat? a, digitsToNat? b with
      | some h, some m => some (h * 60 + m)
      | _, _ => none
    | _ => none

/-- `can_merge_times`: the gap `next - end` must satisfy `0 ≤ gap ≤ 15`. -/
def canMerge (endT nextS : List Char) : Bool :=
  match timeToMinutes endT, timeToMinutes nextS with
  | some e, some n => decide (e ≤ n) && decide (n ≤ e + 15)
  | _, _ => false

/-- Python `end or start`: the `'end'` entry when it is truthy, else the
start (the regex never yields an empty group, so this is `getD` on
reachable values, but the truthiness test is kept). -/
def effEnd (p : PTime) : List Char :=
  match p.stop with
  | some e => if e.isEmpty then p.start else e
  | none => p.start

/-! ## `_merge_adjacent_events` (lines 17-132)

The body is modelled generically over the element type `α` with a
projection `ev : α → EventRecord`; instantiating `α := EventRecord`
gives the function itself, instantiating `α := Nat × EventRecord` gives
an index-instrumented copy used to reason about merge lineage.  The
`_original_index` bookkeeping of the Python code is attached and deleted
without ever being read, so it is not modelled. -/

/-- Lexicographic (code-point) comparison of character lists: Python's
`str.__lt__`, the order used by `list.sort(key=...)`. -/
def lexLt : List Char → List Char → Bool
  | _, [] => false
  | [], _ :: _ => true
  | a :: as, b :: bs => if a < b then true else if b < a then false else lexLt as bs

/-- The sort key `e['_parsed_time']['start'].replace(':', '')` (line 99):
all colons removed, compared as a string. -/
def sortKeyOf (p : PTime) : List Char := p.start.filter (fun c => !(c == ':'))

section MergeCore

variable {α : Type} (ev : α → EventRecord) (setT : α → String → α)

/-- An element paired with its parsed `_parsed_time`. -/
abbrev PE (α : Type) := α × PTime

/-- Sort key of an attached element. -/
def skey (p : PE α) : List Char := sortKeyOf p.2

/-- Stable insertion: the new element goes before the first strictly
greater key, hence after all earlier elements with an equal key. -/
def insortPE (x : PE α) : List (PE α) → List (PE α)
  | [] => [x]
  | y :: ys => if lexLt (skey y) (skey x) then y :: insortPE x ys else x :: y :: ys

/-- Stable sort by `sortKeyOf`; `list.sort` is a stable sort over `<` on
the keys, and a stable sort is uniquely determined, so insertion sort is
a faithful model. -/
def sortPE : List (PE α) → List (PE α)
  | [] => []
  | x :: xs => insortPE x (sortPE xs)

/-- `parse_time_range(event.get('time', ''))`, keeping the element when
it parses (lines 92-97). -/
def attachPE (a : α) : Option (PE α) :=
  (parseTimeRange ((ev a).time.getD "")).map (fun pt => (a, pt))

/-- The inner look-ahead loop (lines 108-118): starting from the current
run end `endT`, consume successive events while `can_merge_times`
accepts them; returns the final end and the number of events consumed. -/
def takeRun (endT : List Char) : List (PE α) → List Char × Nat
  | [] => (endT, 0)
  | p :: ps =>
    if canMerge endT p.2.start then
      let r := takeRun (effEnd p.2) ps
      (r.1, r.2 + 1)
    else (endT, 0)

/-- Effective end of the last element of a run segment (default `d` for
an empty segment): the value `end_time` holds after the look-ahead. -/
def lastEffD (d : List Char) : List (PE α) → List Char
  | [] => d
  | p :: ps => lastEffD (effEnd p.2) ps

/-- The outer loop (lines 102-130) decomposed into runs: each run is its
first event, the events merged into it, and the final end time.  The
recursion is driven by a fuel argument (instantiated with the list
length, which the loop can never exceed) so that the definition is
structural and computable by the kernel. -/
def mergeRunsF : Nat → List (PE α) → List (PE α × List (PE α) × List Char)
  | _, [] => []
  | 0, _ :: _ => []
  | fuel + 1, p :: ps =>
    let r := takeRun (effEnd p.2) ps
    (p, ps.take r.2, r.1) :: mergeRunsF fuel (ps.drop r.2)

def mergeRuns (l : List (PE α)) : List (PE α × List (PE α) × List Char) :=
  mergeRunsF l.length l

/-- Emission of one run: the first event, with its `time` rewritten to
`"<start>-<end>"` exactly when at least one further event was merged
(`j > i + 1`, lines 121-124). -/
def emitRun (h : PE α) (t : List (PE α)) (e : List Char) : α :=
  if t.isEmpty then h.1 else setT h.1 ⟨h.2.start ++ '-' :: e⟩

/-- The parsed time a run's emitted event carries: the head's own parse
when nothing was merged into it, else the merged `"<start>-<end>"` range
(start of the head, end of the run). -/
def ptOut (r : PE α × List (PE α) × List Char) : PTime :=
  if r.2.1.isEmpty then r.1.2 else ⟨r.1.2.start, some r.2.2⟩

/-- Processing of one key group (lines 84-130): singleton groups pass
through; larger groups keep only the events whose time parses, sort them
by the colon-stripped start string, and emit merged runs. -/
def processGroup (g : List α) : List α :=
  match g with
  | [a] => [a]
  | g => (mergeRuns (sortPE (g.filterMap (attachPE ev)))).map
      (fun r => emitRun setT r.1 r.2.1 r.2.2)

/-- First-occurrence-ordered distinct keys: the iteration order of the
Python `grouped` dict (insertion order). -/
def groupKeys : List α → List String
  | [] => []
  | a :: l => mergeKey (ev a) :: (groupKeys l).filter (fun k => k ≠ mergeKey (ev a))

/-- `_merge_adjacent_events`: group by key, process each group, and
concatenate in dict order.  A group's member list in encounter order is
exactly the key-filtered input. -/
def mergeCore (l : List α) : List α :=
  if l.isEmpty then l
  else (groupKeys ev l).flatMap
    (fun k => processGroup ev setT (l.filter (fun a => mergeKey (ev a) == k)))

/-- Lineage of one group's processing: the inputs covered by each output,
concatenated in output order.  A singleton group covers itself; a larger
group's outputs cover their runs; unparseable events are covered by
nothing. -/
def coverGroup (g : List α) : List α :=
  match g with
  | [a] => [a]
  | g => (mergeRuns (sortPE (g.filterMap (attachPE ev)))).flatMap
      (fun r => (r.1 :: r.2.1).map (fun p => p.1))

/-- Concatenated merge lineage of the whole input. -/
def coverCore (l : List α) : List α :=
  if l.isEmpty then l
  else (groupKeys ev l).flatMap
    (fun k => coverGroup ev (l.filter (fun a => mergeKey (ev a) == k)))

/-- Merge-eligibility: the element's key group in `l` is a singleton, or
its own time field parses a leading `H:MM`. -/
def eligB (l : List α) (a : α) : Bool :=
  ((l.filter (fun b => mergeKey (ev b) == mergeKey (ev a))).length == 1) ||
    (parseTimeRange ((ev a).time.getD "")).isSome

end MergeCore

/-- The function itself, on event records. -/
def mergeAdjacentEvents : List EventRecord → List EventRecord :=
  mergeCore id setTime

/-- Index-instrumented copy over `(original index, record)` pairs. -/
def mergeEnum (events : List EventRecord) : List (Nat × EventRecord) :=
  mergeCore Prod.snd (fun a s => (a.1, setTime a.2 s)) events.enum

/-- The original indices covered by the merge lineage, concatenated over
all outputs in output order. -/
def mergeCoverage (events : List EventRecord) : List Nat :=
  (coverCore Prod.snd events.enum).map Prod.fst

/-- An input position is *merge-eligible* when its group is a singleton or
its own time field parses a leading `H:MM`. -/
def eligibleAt (events : List EventRecord) (i : Nat) (h : i < events.length) : Prop :=
  (events.filter (fun a => mergeKey a == mergeKey (events.get ⟨i, h⟩))).length = 1 ∨
    (parseTimeRange ((events.get ⟨i, h⟩).time.getD "")).isSome

instance (events : List EventRecord) (i : Nat) (h : i < events.length) :
    Decidable (eligibleAt events i h) := by
  unfold eligibleAt; infer_instance

/-! ## Datetimes and the AM/PM inference engine (lines 282-385)

Datetimes are modelled as minutes: a date string parses (through the
external `dateutil` parser, taken as an oracle `dp : String → Option Int`)
to a day ordinal `d`, and a wall-clock datetime on that day is
`d * 1440 + hour * 60 + minute`.  A time string parses through the oracle
`tp : String → Option (Nat × Nat)` to `(t.hour, t.minute)`; `none` models
the external parser raising.  Timezone localization attaches the same
fixed zone to both ends of a range and does not affect comparisons, so it
is not represented. -/

/-- `_has_ampm` (line 282): `bool(s) and ('am' in s.lower() or 'pm' in s.lower())`. -/
def hasAmpm (s : String) : Bool :=
  !(s == "") && (hasSubstr "am".data (pyLower s).data || hasSubstr "pm".data (pyLower s).data)

/-- `_infer_hour` (lines 285-298). -/
def inferHour (hour : Nat) (ampm : Bool) : Nat :=
  if ampm = true ∨ 12 ≤ hour then hour
  else if (7 ≤ hour ∧ hour ≤ 11) ∨ hour = 12 then hour
  else if 1 ≤ hour ∧ hour ≤ 6 then hour + 12
  else hour

/-- `date_obj.replace(hour=h, minute=m, second=0, microsecond=0)` on day `d`. -/
def dtFrom (d : Int) (h m : Nat) : Int := d * 1440 + h * 60 + m

/-- `datetime.hour` of a minute-valued datetime. -/
def dtHour (t : Int) : Int := (t % 1440) / 60

/-- `_parse_time_range_with_inference` (lines 313-337) on parsed
components: hours are inferred, the end is pushed to PM when both ends
are ambiguous and `end ≤ start` (only when the inferred end hour is
`< 12`), then the duration is capped at 2 hours for day-period starts. -/
def parseTimeRangeWithInference (d : Int) (sh sm eh em : Nat) (sAm eAm : Bool) :
    Int × Int :=
  let sh1 := inferHour sh sAm
  let eh1 := inferHour eh eAm
  let startDt := dtFrom d sh1 sm
  let endDt0 := dtFrom d eh1 em
  let endDt1 :=
    if endDt0 ≤ startDt ∧ sAm = false ∧ eAm = false then
      (if eh1 < 12 then dtFrom d (eh1 + 12) em else endDt0)
    else endDt0
  let endDt2 :=
    if sAm = false ∧ eAm = false ∧ dtHour startDt < 19 ∧ endDt1 - startDt > 120 then
      startDt + 120
    else endDt1
  (startDt, endDt2)

/-- `_parse_time_range_with_inference` at the string level; a failing date
or time parse models the uncaught exception from `date_parser.parse`. -/
def parseRangeStrs (dp : String → Option Int) (tp : String → Option (Nat × Nat))
    (dateStr : Option String) (sStr eStr : String) : Except String (Int × Int) :=
  match dateStr with
  | none => .error "TypeError: date is None"
  | some ds =>
    match dp ds with
    | none => .error "ParserError: bad date"
    | some d =>
      match tp sStr, tp eStr with
      | some (sh, sm), some (eh, em) =>
        .ok (parseTimeRangeWithInference d sh sm eh em (hasAmpm sStr) (hasAmpm eStr))
      | _, _ => .error "ParserError: bad time"

/-- `_parse_datetime` (lines 339-385): an unparsable date raises
`ValueError`; an unparsable (or absent/empty) time falls back to noon. -/
def parseDatetime (dp : String → Option Int) (tp : String → Option (Nat × Nat))
    (dateStr : Option String) (timeStr : Option String) : Except String Int :=
  match dateStr with
  | none => .error "Invalid date format"
  | some ds =>
    match dp ds with
    | none => .error "Invalid date format"
    | some d =>
      match timeStr with
      | some t =>
        if t ≠ "" then
          match tp t with
          | some (h, m) => .ok (dtFrom d (inferHour h (hasAmpm t)) m)
          | none => .ok (dtFrom d 12 0)
        else .ok (dtFrom d 12 0)
      | none => .ok (dtFrom d 12 0)

/-! ## `_create_event` and `generate_ics` (lines 134-280)

The emitted calendar is modelled structurally (the `icalendar`
serialization is external); per §6 of the spec the text contains
`SUMMARY`, `DTSTART`, `DTEND`, `UID`, `DTSTAMP`, optional `RRULE` and an
optional alarm block per event, so distinct structures yield distinct
text. -/

structure AlarmBlock where
  action : String
  description : String
  triggerMinutes : Int
deriving DecidableEq, Repr

structure VEvent where
  summary : String
  dtstart : Int
  dtend : Int
  location : Option String
  description : Option String
  uid : String
  dtstamp : Int
  rrule : Option (List String × List String)
  alarm : Option AlarmBlock
deriving DecidableEq, Repr

/-- `start_dt.strftime('%a').upper()[:2]` on the abstract day ordinal. -/
def wdCode (t : Int) : String :=
  ["MO", "TU", "WE", "TH", "FR", "SA", "SU"].getD (((t / 1440) % 7).toNat) "MO"

/-- The `RRULE` construction (lines 244-268): unknown tags leave `FREQ`
empty and add no rule. -/
def rruleOf (recurring : Option String) (startDt : Int) :
    Option (List String × List String) :=
  let rec' := recurring.getD "none"
  if rec' ≠ "" ∧ rec' ≠ "none" then
    if rec' = "weekly" then some (["WEEKLY"], [wdCode startDt])
    else if rec' = "daily" then some (["WEEKLY"], ["MO", "TU", "WE", "TH", "FR"])
    else if rec' = "MONDAY" then some (["WEEKLY"], ["MO"])
    else if rec' = "TUESDAY" then some (["WEEKLY"], ["TU"])
    else if rec' = "WEDNESDAY" then some (["WEEKLY"], ["WE"])
    else if rec' = "THURSDAY" then some (["WEEKLY"], ["TH"])
    else if rec' = "FRIDAY" then some (["WEEKLY"], ["FR"])
    else if rec' = "SATURDAY" then some (["WEEKLY"], ["SA"])
    else if rec' = "SUNDAY" then some (["WEEKLY"], ["SU"])
    else none
  else none

/-- The reminder alarm (lines 270-278): `event_data.get('reminder_minutes', 45)`
followed by the truthiness-and-positivity guard. -/
def alarmOf (e : EventRecord) : Option AlarmBlock :=
  let rm := e.reminder.getD 45
  if rm ≠ 0 ∧ 0 < rm then
    some ⟨"DISPLAY", "Reminder: " ++ (e.title.getD "Event"), -rm⟩
  else none

/-- Python truthiness of an optional string field. -/
def optTruthy (o : Option String) : Bool :=
  match o with
  | some s => s ≠ ""
  | none => false

/-- The time-field analysis of `_create_event` (lines 188-223): split a
range on `-`, choose the range-inference path or the
`_parse_datetime` + explicit-`end_time`/1-hour-default path. -/
def eventTimes (dp : String → Option Int) (tp : String → Option (Nat × Nat))
    (e : EventRecord) : Except String (Int × Int) := do
  let timeStr := e.time.getD ""
  let parts : Option String × Option String :=
    if timeStr ≠ "" ∧ timeStr.data.contains '-' then
      match timeStr.splitOn "-" with
      | [p1, p2] => (some (pyStrip p1), some (pyStrip p2))
      | _ => (none, none)
    else (some timeStr, none)
  match parts.1, parts.2 with
  | some st, some en =>
    if st ≠ "" ∧ en ≠ "" then parseRangeStrs dp tp e.date st en
    else do
      let s ← parseDatetime dp tp e.date parts.1
      let en' ← (if optTruthy e.endTime then parseDatetime dp tp e.date e.endTime
                 else .ok (s + 60))
      .ok (s, en')
  | _, _ => do
    let s ← parseDatetime dp tp e.date parts.1
    let en' ← (if optTruthy e.endTime then parseDatetime dp tp e.date e.endTime
               else .ok (s + 60))
    .ok (s, en')

/-- `_create_event` (lines 182-280).  `now` is the value of
`datetime.now(tz)` (the ambient clock at the `dtstamp` line); the `UID`
uses the ISO rendering of the start, modelled by `toString`. -/
def createEvent (dp : String → Option Int) (tp : String → Option (Nat × Nat))
    (now : Int) (e : EventRecord) : Except String VEvent :=
  (eventTimes dp tp e).map (fun se =>
    { summary := e.title.getD "Untitled Event"
      dtstart := se.1
      dtend := se.2
      location := if optTruthy e.location then e.location else none
      description := if optTruthy e.description then e.description else none
      uid := toString se.1 ++ "-" ++ e.title.getD "event" ++ "@timetable-generator"
      dtstamp := now
      rrule := rruleOf e.recurring se.1
      alarm := alarmOf e })

structure CalendarModel where
  prodid : String
  version : String
  calname : String
  tzid : String
  events : List VEvent
deriving DecidableEq, Repr

/-- The `for event_data in events: try ... except: continue` loop of
`generate_ics` (lines 170-178), accumulating the components added so far. -/
def emitFoldAcc (g : EventRecord → Except String VEvent) (acc : List VEvent) :
    List EventRecord → List VEvent
  | [] => acc
  | e :: rest =>
    match g e with
    | .ok v => emitFoldAcc g (acc ++ [v]) rest
    | .error _ => emitFoldAcc g acc rest

/-- `generate_ics` (lines 134-180): merge, then assemble each event,
skipping any event whose assembly raises. -/
def generateIcs (dp : String → Option Int) (tp : String → Option (Nat × Nat))
    (events : List EventRecord) (calendarName timezone : String) (now : Int) :
    CalendarModel :=
  let merged := mergeAdjacentEvents events
  { prodid := "-//Timetable Generator//EN"
    version := "2.0"
    calname := calendarName
    tzid := timezone
    events := emitFoldAcc (createEvent dp tp now) [] merged }

/-- Erase every event's `DTSTAMP`, the one clock-derived field. -/
def stripStamp (v : VEvent) : VEvent := { v with dtstamp := 0 }

def stripStamps (c : CalendarModel) : CalendarModel :=
  { c with events := c.events.map stripStamp }

/-! ## `_clean_columns` and `_fit_column_names` (parser.py lines 419-452)

The `seen` dictionary is modelled as an association list.  An input entry
`none` models Python `None` (mapped to `""`); a `NaN` header cell reaches
this code as the string `"nan"` (via `str(...)`). -/

def lookupSeen : List (String × Nat) → String → Option Nat
  | [], _ => none
  | (k, v) :: rest, key => if k == key then some v else lookupSeen rest key

def setSeen : List (String × Nat) → String → Nat → List (String × Nat)
  | [], key, v => [(key, v)]
  | (k, w) :: rest, key, v =>
    if k == key then (k, v) :: rest else (k, w) :: setSeen rest key v

/-- The loop of `_clean_columns`: blank names become `Column_<idx+1>`;
a name already in `seen` gets `_<bumped count>` appended — the renamed
result itself is *not* recorded in `seen`. -/
def cleanColumnsAux : Nat → List (String × Nat) → List (Option String) → List String
  | _, _, [] => []
  | idx, seen, c :: cs =>
    let name0 := match c with | none => "" | some s => pyStrip s
    let name1 := if name0 = "" then "Column_" ++ toString (idx + 1) else name0
    match lookupSeen seen name1 with
    | some n =>
      (name1 ++ "_" ++ toString (n + 1)) ::
        cleanColumnsAux (idx + 1) (setSeen seen name1 (n + 1)) cs
    | none => name1 :: cleanColumnsAux (idx + 1) (setSeen seen name1 0) cs

def cleanColumns (cols : List (Option String)) : List String := cleanColumnsAux 0 [] cols

/-- `_fit_column_names`: truncate or pad with `Column_<n>` to `n_cols`,
then `_clean_columns`. -/
def fitColumnNames (names : List (Option String)) (nCols : Nat) : List String :=
  let norm := names.map (fun n => match n with | none => "" | some s => pyStrip s)
  if nCols = 0 then []
  else if nCols ≤ norm.length then cleanColumns ((norm.take nCols).map some)
  else
    cleanColumns ((norm ++ (List.range' norm.length (nCols - norm.length)).map
      (fun i => "Column_" ++ toString (i + 1))).map some)

/-! ## The DataFrame model and `_process_dataframe` (parser.py lines 35-232)

A `Frame` is a rectangular grid of optional string cells (`none` models a
pandas missing value) together with its column labels.  The operations
below model the pandas operations used by `_process_dataframe`, raising
(`Except.error`) exactly where pandas raises:

* assigning a column-name list of the wrong length;
* label-based selection of an absent label (`KeyError`);
* `pd.concat([])`;
* `pd.concat` of frames whose column lists differ while some frame has
  duplicate column labels — pandas must then reindex on a non-unique
  axis and raises `InvalidIndexError` ("Reindexing only valid with
  uniquely valued Index objects").

Positional (`iloc`) accesses in this function are always in bounds for a
rectangular frame (the indices come from enumerating a header row), so
they are modelled with defaulted access.  `str()` of a missing value is
rendered `"nan"` (the CSV/Excel path; the PDF path can also hand `None`,
rendered `"None"` — not exercised by the claims). -/

abbrev Cell := Option String

/-- `str(cell)` under `astype(str)`/f-string conversion. -/
def cellStr (c : Cell) : String := c.getD "nan"

structure Frame where
  colLabels : List String
  rows : List (List Cell)
deriving DecidableEq, Repr

def Frame.ncolsF (f : Frame) : Nat := f.colLabels.length

/-- `df.empty`. -/
def Frame.isEmptyF (f : Frame) : Bool := f.rows.isEmpty || f.colLabels.isEmpty

/-- Positional column selection `df.iloc[:, idxs]` (indices in bounds by
construction at every use site). -/
def Frame.iselect (f : Frame) (idxs : List Nat) : Frame :=
  { colLabels := idxs.map (fun j => f.colLabels.getD j ""),
    rows := f.rows.map (fun r => idxs.map (fun j => r.getD j none)) }

/-- `df.dropna(how="all")`. -/
def Frame.dropnaRowsAll (f : Frame) : Frame :=
  { f with rows := f.rows.filter (fun r => r.any Option.isSome) }

/-- `df.dropna(axis=1, how="all")`. -/
def Frame.dropnaColsAll (f : Frame) : Frame :=
  f.iselect ((List.range f.ncolsF).filter
    (fun j => f.rows.any (fun r => (r.getD j none).isSome)))

/-- `df.columns = names` — pandas raises on a length mismatch. -/
def Frame.setColumns (f : Frame) (names : List String) : Except String Frame :=
  if names.length = f.ncolsF then .ok { f with colLabels := names }
  else .error "ValueError: Length mismatch"

/-- All positions carrying a label. -/
def matchPositions (labels : List String) (l : String) : List Nat :=
  (List.range labels.length).filter (fun j => labels.getD j "" == l)

/-- `df[list_of_labels]`: each requested label selects every column
carrying it; an absent label raises `KeyError`. -/
def Frame.selectByLabels (f : Frame) (ls : List String) : Except String Frame :=
  if ls.all (fun l => f.colLabels.contains l) then
    .ok (f.iselect (ls.flatMap (matchPositions f.colLabels)))
  else .error "KeyError"

def Frame.getCol (f : Frame) (j : Nat) : List Cell := f.rows.map (fun r => r.getD j none)

def Frame.setCol (f : Frame) (j : Nat) (col : List Cell) : Frame :=
  { f with rows := (f.rows.zip col).map (fun rc => rc.1.set j rc.2) }

/-- `.replace(['', 'nan', 'None', None], pd.NA)` on one column. -/
def replNACol (col : List Cell) : List Cell :=
  col.map (fun c =>
    match c with
    | some s => if s = "" ∨ s = "nan" ∨ s = "None" then none else some s
    | none => none)

/-- Forward fill (`ffill`) along a sequence of cells. -/
def ffillSeq : Cell → List Cell → List Cell
  | _, [] => []
  | last, c :: cs =>
    match c with
    | some v => some v :: ffillSeq (some v) cs
    | none => last :: ffillSeq last cs

/-- `chunk[common_slice] = chunk[common_slice].replace(...).ffill()`. -/
def Frame.ffillCols (f : Frame) (ls : List String) : Frame :=
  (ls.flatMap (matchPositions f.colLabels)).foldl
    (fun g j => g.setCol j (ffillSeq none (replNACol (g.getCol j)))) f

/-- `df.dropna(how='all', subset=subset)`: a row survives when some subset
position is non-missing; with an empty subset every row is dropped
(`how='all'` over zero considered values holds vacuously). -/
def Frame.dropnaSubsetAll (f : Frame) (subset : List String) : Except String Frame :=
  if subset.all (fun l => f.colLabels.contains l) then
    let pos := subset.flatMap (matchPositions f.colLabels)
    .ok { f with rows := f.rows.filter (fun r => pos.any (fun j => (r.getD j none).isSome)) }
  else .error "KeyError"

/-- `df[label] = value` with a scalar: overwrite every column carrying the
label, or append a new column. -/
def Frame.addColumn (f : Frame) (l : String) (v : String) : Frame :=
  let pos := matchPositions f.colLabels l
  if pos.isEmpty then
    { colLabels := f.colLabels ++ [l], rows := f.rows.map (fun r => r ++ [some v]) }
  else { f with rows := f.rows.map (fun r => pos.foldl (fun r' j => r'.set j (some v)) r) }

/-- `pd.concat(frames, ignore_index=True)` along rows: identical column
lists stack directly; otherwise columns are aligned by label
(first-appearance order, missing filled with `NaN`), which requires every
frame's columns to be unique — pandas raises `InvalidIndexError` when a
frame with duplicate labels must be reindexed. -/
def Frame.concatRows : List Frame → Except String Frame
  | [] => .error "ValueError: No objects to concatenate"
  | f :: fs =>
    if fs.all (fun g => g.colLabels == f.colLabels) then
      .ok { colLabels := f.colLabels, rows := (f :: fs).flatMap (fun g => g.rows) }
    else if (f :: fs).any (fun g => decide (¬ g.colLabels.Nodup)) then
      .error "InvalidIndexError: Reindexing only valid with uniquely valued Index objects"
    else
      let combined := (f :: fs).foldl (fun acc g => acc ++ g.colLabels.filter (fun l => l ∉ acc)) []
      .ok { colLabels := combined,
            rows := (f :: fs).flatMap (fun g => g.rows.map (fun r =>
              combined.map (fun l =>
                match matchPositions g.colLabels l with
                | j :: _ => r.getD j none
                | [] => none))) }

/-- `pd.DataFrame(grid)` with default integer labels (ragged rows padded
with missing values, as pandas does). -/
def Frame.ofGrid (g : List (List Cell)) : Frame :=
  let n := g.foldl (fun m r => max m r.length) 0
  { colLabels := (List.range n).map (fun j => toString j),
    rows := g.map (fun r => (List.range n).map (fun j => r.getD j none)) }

def dayKeywords : List String :=
  ["monday", "tuesday", "wednesday", "thursday", "friday", "saturday", "sunday",
   "mon", "tue", "tues", "wed", "thu", "thur", "thurs", "fri", "sat", "sun"]

def attrKeywords : List String :=
  ["course", "subject", "module", "title", "class", "type",
   "venue", "room", "room no", "rm", "location", "building", "hall", "lab", "address",
   "teacher", "instructor", "lecturer", "tutor", "code"]

def cellHasAny (kws : List String) (cellLower : String) : Bool :=
  kws.any (fun k => hasSubstr k.data cellLower.data)

/-- `sum(1 for cell in row if any(kw in cell for kw in kws))` over the
lowercased stringified row. -/
def keywordHits (kws : List String) (r : List Cell) : Nat :=
  (r.map (fun c => pyLower (cellStr c))).countP (cellHasAny kws)

/-- `row.replace({'nan': None, 'NaN': None, '': None})`. -/
def replSer (r : List Cell) : List Cell :=
  r.map (fun c =>
    match c with
    | some s => if s = "nan" ∨ s = "NaN" ∨ s = "" then none else some s
    | none => none)

/-- `val is None or str(val).strip() in ('', 'nan', 'NaN')`. -/
def isBlankVal (c : Cell) : Bool :=
  match c with
  | none => true
  | some s => pyStrip s = "" ∨ pyStrip s = "nan" ∨ pyStrip s = "NaN"

/-- Day-keyword test on `str(val).strip().lower()`. -/
def isDayCell (c : Cell) : Bool :=
  match c with
  | none => false
  | some s => cellHasAny dayKeywords (pyLower (pyStrip s))

/-! ### Concrete fixtures used by counterexamples and witnesses -/

/-- A date-parsing oracle mapping every date string to day 0. -/
def dpFix : String → Option Int := fun _ => some 0

/-- A time-parsing oracle recognizing only `"09:00"`. -/
def tpFix : String → Option (Nat × Nat) := fun s => if s = "09:00" then some (9, 0) else none

/-- A well-formed event record (9:00, reminder defaulted). -/
def evSample : EventRecord :=
  { date := some "2024-01-15", title := some "T", location := none, time := some "09:00",
    endTime := none, description := none, recurring := none, reminder := none }

/-- Two events sharing a merge group: one parseable time, one not. -/
def evParseable : EventRecord :=
  { date := some "2024-01-15", title := some "Math", location := some "R1",
    time := some "8:00", endTime := none, description := none, recurring := none,
    reminder := none }

def evUnparseable : EventRecord := { evParseable with time := some "TBA" }

/-- The event assembled from `evSample` at clock `0`. -/
def vSample : VEvent :=
  { summary := "T", dtstart := 540, dtend := 600, location := none, description := none,
    uid := "540-T@timetable-generator", dtstamp := 0, rrule := none,
    alarm := some ⟨"DISPLAY", "Reminder: T", -45⟩ }

/-- Events for the sort-order counterexample: `8:30` and `10:00` in one
group (colon-stripped keys `"830"` and `"1000"`). -/
def evHalfNine : EventRecord := { evParseable with time := some "8:30" }

def evTen : EventRecord := { evParseable with time := some "10:00" }

/-- A grid whose hierarchical unpivot produces a day chunk with duplicate
fitted column names (`Course_1` twice, from the `_clean_columns` suffix
collision) next to a day with different columns, so the final
`pd.concat` must reindex a duplicate-labelled axis. -/
def badGrid : List (List Cell) :=
  [[none, some "Monday", some "Monday", some "Monday", some "Tuesday"],
   [some "Time", some "Course", some "Course", some "Course_1", some "Venue"],
   [some "8:00", some "x", some "y", some "z", some "w"]]

/-- `_name_for_common` (lines 121-128). -/
def nameForCommon (rowAttrs rowDaysRaw : List Cell) (idx : Nat) : String :=
  let name := pyStrip (cellStr (rowAttrs.getD idx none))
  if name = "" ∨ pyLower name = "nan" ∨ pyLower name = "none" then
    let fb := if idx < rowDaysRaw.length then cellStr (rowDaysRaw.getD idx none) else ""
    let fb := pyStrip fb
    if fb = "" then "Time" else fb
  else name

/-- The repeating-attribute-pattern detection (lines 138-155). -/
def basePatternOf (dayAttrNames : List String) : List String :=
  let p0 : List String :=
    match dayAttrNames with
    | [] => []
    | first :: _ =>
      if 1 < dayAttrNames.count first then
        match (List.range dayAttrNames.length).find?
            (fun i => decide (1 ≤ i) && (dayAttrNames.getD i "" == first)) with
        | some i2 =>
          let p := dayAttrNames.take i2
          if p.length ≠ 0 ∧ dayAttrNames.length % p.length = 0 ∧
              (List.range dayAttrNames.length).all
                (fun i => dayAttrNames.getD i "" == p.getD (i % p.length) "") then p
          else []
        | none => []
      else []
  if p0.isEmpty then dayAttrNames else p0

/-- `_process_dataframe` (lines 35-232). -/
def processDataframe (f0 : Frame) : Except String Frame := do
  let f := f0.dropnaRowsAll.dropnaColsAll
  if f.isEmptyF then return f
  let searchLimit := min 20 f.rows.length
  let headerIdx? := (List.range (searchLimit - 1)).find? (fun i =>
    decide (1 ≤ keywordHits dayKeywords (f.rows.getD i [])) &&
    decide (2 ≤ keywordHits attrKeywords (f.rows.getD (i + 1) [])))
  match headerIdx? with
  | some hIdx =>
    let rowDaysRaw := f.rows.getD hIdx []
    let rowAttrs := f.rows.getD (hIdx + 1) []
    let rowDaysFfill := ffillSeq none (replSer rowDaysRaw)
    let commonIdx := (List.range rowDaysFfill.length).filter (fun j =>
      isBlankVal (rowDaysFfill.getD j none) || !(isDayCell (rowDaysFfill.getD j none)))
    let dayIdx := (List.range rowDaysFfill.length).filter (fun j =>
      !(isBlankVal (rowDaysFfill.getD j none)) && isDayCell (rowDaysFfill.getD j none))
    let uniqueDays := dayIdx.foldl (fun acc j =>
      let dval := pyStrip (cellStr (rowDaysFfill.getD j none))
      if dval ≠ "" ∧ dval ∉ acc then acc ++ [dval] else acc) []
    let dataBody : Frame := { colLabels := f.colLabels, rows := f.rows.drop (hIdx + 2) }
    let commonNames := commonIdx.map (nameForCommon rowAttrs rowDaysRaw)
    let processDay : String → Except String (Option Frame) := fun day => do
      let curIdx := dayIdx.filter
        (fun j => pyStrip (cellStr (rowDaysFfill.getD j none)) == day)
      if curIdx.isEmpty then return none
      let dayAttrNames := curIdx.map (fun j => pyStrip (cellStr (rowAttrs.getD j none)))
      let basePattern := basePatternOf dayAttrNames
      let patternWidth := basePattern.length
      if 0 < patternWidth ∧ curIdx.length % patternWidth = 0 then
        let numRepeats := curIdx.length / patternWidth
        let dayChunks ← (List.range numRepeats).foldlM (fun (acc : List Frame) i => do
          let subIdx := (curIdx.drop (i * patternWidth)).take patternWidth
          let chunk0 := dataBody.iselect (commonIdx ++ subIdx)
          let fitted := fitColumnNames ((commonNames ++ basePattern).map some) chunk0.ncolsF
          let chunk1 ← chunk0.setColumns fitted
          let chunk2 :=
            if ¬ commonNames.isEmpty ∧ 0 < chunk1.ncolsF then
              chunk1.ffillCols (chunk1.colLabels.take (min commonNames.length chunk1.ncolsF))
            else chunk1
          let chunk3 ← chunk2.dropnaSubsetAll
            (chunk2.colLabels.filter (fun c => c ∉ commonNames))
          if chunk3.isEmptyF then return acc else return acc ++ [chunk3]) []
        if dayChunks.isEmpty then return none
        else do
          let dayDf ← Frame.concatRows dayChunks
          return some (dayDf.addColumn "Day" day)
      else do
        let chunk0 := dataBody.iselect (commonIdx ++ curIdx)
        let fitted := fitColumnNames ((commonNames ++ dayAttrNames).map some) chunk0.ncolsF
        let chunk1 ← chunk0.setColumns fitted
        let chunk2 :=
          if ¬ commonNames.isEmpty ∧ 0 < chunk1.ncolsF then
            chunk1.ffillCols (chunk1.colLabels.take (min commonNames.length chunk1.ncolsF))
          else chunk1
        return some (chunk2.addColumn "Day" day)
    let normalizedChunks ← uniqueDays.foldlM (fun (acc : List Frame) day => do
      match ← processDay day with
      | some df => return acc ++ [df]
      | none => return acc) []
    if ¬ normalizedChunks.isEmpty then
      let df1 ← Frame.concatRows normalizedChunks
      let commonNames2 := cleanColumns (commonNames.map some)
      let leadingCols := "Day" :: commonNames2.filter (fun name => df1.colLabels.contains name)
      let otherCols := df1.colLabels.filter (fun c => c ∉ leadingCols)
      df1.selectByLabels (leadingCols ++ otherCols)
    else
      let tail : Frame := { colLabels := f.colLabels, rows := f.rows.drop (hIdx + 2) }
      tail.setColumns (cleanColumns (tail.colLabels.map some))
  | none =>
    if ¬ f.isEmptyF then
      let headerRow := f.rows.getD 0 []
      let tail : Frame := { colLabels := f.colLabels, rows := f.rows.drop 1 }
      tail.setColumns
        (fitColumnNames
          ((cleanColumns (headerRow.map (fun c => some (cellStr c)))).map some) tail.ncolsF)
    else return f

/-! # Theorems -/

/-! ## Arithmetic helpers for the time engine -/

theorem inferHour_le (h : Nat) (b : Bool) (hh : h ≤ 23) : inferHour h b ≤ 23 := by
  unfold inferHour; split_ifs <;> omega

theorem dtHour_dtFrom (d : Int) (h m : Nat) (hh : h ≤ 23) (hm : m ≤ 59) :
    dtHour (dtFrom d h m) = h := by
  unfold dtHour dtFrom; omega

/-! ## C3: AM/PM hour inference -/

/-- C3: for every hour `h` parsed from a time string, an explicit AM/PM
marker or `h ≥ 12` leaves `h` unchanged; otherwise hours `7..12` are kept
(morning/noon) and hours `1..6` are shifted by `+12` (afternoon); in
particular ambiguous `3 ↦ 15` and ambiguous `9 ↦ 9`. -/
theorem c3_infer_hour_rules (h : Nat) (b : Bool) :
    ((b = true ∨ 12 ≤ h) → inferHour h b = h) ∧
    (b = false → 7 ≤ h → h ≤ 12 → inferHour h b = h) ∧
    (b = false → 1 ≤ h → h ≤ 6 → inferHour h b = h + 12) ∧
    inferHour 3 false = 15 ∧ inferHour 9 false = 9 := by
  refine ⟨fun hc => ?_, fun hb h7 h12 => ?_, fun hb h1 h6 => ?_, by decide, by decide⟩
  · unfold inferHour
    rcases hc with hb | h12
    · subst hb; simp
    · rw [if_pos (Or.inr h12)]
  · subst hb; unfold inferHour; simp only [Bool.false_eq_true, false_or]
    split_ifs <;> omega
  · subst hb; unfold inferHour; simp only [Bool.false_eq_true, false_or]
    split_ifs <;> omega

/-- Witness for C3 at concrete hours. -/
theorem c3_infer_hour_rules_witness :
    inferHour 9 false = 9 ∧ inferHour 3 false = 15 ∧ inferHour 14 false = 14 :=
  ⟨(c3_infer_hour_rules 9 false).2.1 rfl (by decide) (by decide),
   (c3_infer_hour_rules 3 false).2.2.1 rfl (by decide) (by decide),
   (c3_infer_hour_rules 14 false).1 (Or.inr (by decide))⟩

/-! ## C4: the end-of-range PM shift -/

/-- C4 counterexample: with ambiguous start `16:00` and end `15:00` the
inferred end (`900` minutes) is `≤` the inferred start (`960`), yet
`_parse_time_range_with_inference` returns the end unshifted (the inferred
end hour is already `≥ 12`), not `12` hours later as claimed. -/
theorem c4_no_shift_counterexample :
    dtFrom 0 (inferHour 15 false) 0 ≤ dtFrom 0 (inferHour 16 false) 0 ∧
    parseTimeRangeWithInference 0 16 0 15 0 false false =
      (dtFrom 0 (inferHour 16 false) 0, dtFrom 0 (inferHour 15 false) 0) ∧
    dtFrom 0 (inferHour 15 false) 0 ≠ dtFrom 0 (inferHour 15 false) 0 + 720 := by
  decide

/-- C4 amended: when both time strings lack AM/PM and the inferred end is
`≤` the inferred start, the end is shifted by `+12` hours only when the
inferred end hour is `< 12` (otherwise it is returned as inferred), and
the shifted end is afterwards capped to `start + 2h` when the start hour
is before `19` and the resulting duration exceeds two hours. -/
theorem c4_pm_shift_amended (d : Int) (sh sm eh em : Nat)
    (hsh : sh ≤ 23) (hsm : sm ≤ 59) (heh : eh ≤ 23) ( _hem : em ≤ 59)
    (hle : dtFrom d (inferHour eh false) em ≤ dtFrom d (inferHour sh false) sm) :
    parseTimeRangeWithInference d sh sm eh em false false =
      (dtFrom d (inferHour sh false) sm,
        if inferHour eh false < 12 then
          (if (inferHour sh false : Int) < 19 ∧
              dtFrom d (inferHour eh false + 12) em - dtFrom d (inferHour sh false) sm > 120 then
            dtFrom d (inferHour sh false) sm + 120
          else dtFrom d (inferHour eh false + 12) em)
        else dtFrom d (inferHour eh false) em) := by
  have hs23 := inferHour_le sh false hsh
  have he23 := inferHour_le eh false heh
  have hhr := dtHour_dtFrom d (inferHour sh false) sm hs23 hsm
  simp only [parseTimeRangeWithInference, hhr]
  unfold dtFrom at *
  split_ifs <;> simp_all <;> omega

/-- Witness for C4 amended: ambiguous `8:00`–`8:00` is shifted to PM and
then capped at `10:00`. -/
theorem c4_pm_shift_amended_witness :
    dtFrom 0 (inferHour 8 false) 0 ≤ dtFrom 0 (inferHour 8 false) 0 ∧
    parseTimeRangeWithInference 0 8 0 8 0 false false =
      (dtFrom 0 (inferHour 8 false) 0,
        if inferHour 8 false < 12 then
          (if (inferHour 8 false : Int) < 19 ∧
              dtFrom 0 (inferHour 8 false + 12) 0 - dtFrom 0 (inferHour 8 false) 0 > 120 then
            dtFrom 0 (inferHour 8 false) 0 + 120
          else dtFrom 0 (inferHour 8 false + 12) 0)
        else dtFrom 0 (inferHour 8 false) 0) :=
  ⟨by decide,
   c4_pm_shift_amended 0 8 0 8 0 (by decide) (by decide) (by decide) (by decide) (by decide)⟩

/-! ## C6: layout-inference totality -/

/-- C6: the empty grid yields an empty table, but layout inference is not
total — on `badGrid` the duplicate fitted column names force the final
`pd.concat` to reindex a duplicate-labelled axis, which raises
(`InvalidIndexError`), contradicting the stated failure policy. -/
theorem c6_layout_not_total :
    processDataframe (Frame.ofGrid [[none, none], [none, none]]) =
      .ok { colLabels := [], rows := [] } ∧
    processDataframe (Frame.ofGrid badGrid) =
      .error "InvalidIndexError: Reindexing only valid with uniquely valued Index objects" := by
  constructor <;> rfl

/-! ## C7: final column names are not always distinct -/

/-- C7: `_clean_columns`/`_fit_column_names` fail to produce pairwise
distinct names when a header already ends in a numeric suffix:
`["A", "A", "A_1"]` cleans to `["A", "A_1", "A_1"]`, a duplicate —
contradicting `_fit_column_names`' own "Always returns cleaned, unique
names" contract. -/
theorem c7_dedup_collision :
    fitColumnNames [some "A", some "A", some "A_1"] 3 = ["A", "A_1", "A_1"] ∧
    cleanColumns [some "A", some "A", some "A_1"] = ["A", "A_1", "A_1"] ∧
    ¬ (fitColumnNames [some "A", some "A", some "A_1"] 3).Nodup := by
  refine ⟨by rfl, by rfl, ?_⟩
  intro hnd
  rw [show fitColumnNames [some "A", some "A", some "A_1"] 3 = ["A", "A_1", "A_1"] from rfl] at hnd
  simp at hnd

/-! ## C8: one malformed event never aborts the batch -/

theorem emitFoldAcc_eq_filterMap (g : EventRecord → Except String VEvent) :
    ∀ (l : List EventRecord) (acc : List VEvent),
      emitFoldAcc g acc l = acc ++ l.filterMap (fun e => (g e).toOption) := by
  intro l
  induction l with
  | nil => simp [emitFoldAcc]
  | cons x xs ih =>
    intro acc
    unfold emitFoldAcc
    cases hg : g x <;> simp [ih, Except.toOption, hg]

theorem generateIcs_closed_form (dp : String → Option Int) (tp : String → Option (Nat × Nat))
    (events : List EventRecord) (nm tz : String) (now : Int) :
    generateIcs dp tp events nm tz now =
      { prodid := "-//Timetable Generator//EN", version := "2.0", calname := nm, tzid := tz,
        events := (mergeAdjacentEvents events).filterMap
          (fun e => (createEvent dp tp now e).toOption) } := by
  simp only [generateIcs]
  rw [emitFoldAcc_eq_filterMap (createEvent dp tp now)]
  simp

/-- C8: `generate_ics` always returns a calendar whose entries are exactly
the merged events whose single-event assembly succeeds, in order; an
event whose date is unparsable or whose assembly raises is skipped while
the rest of the batch is emitted. -/
theorem c8_skip_invalid_events (dp : String → Option Int) (tp : String → Option (Nat × Nat))
    (events : List EventRecord) (nm tz : String) (now : Int) :
    generateIcs dp tp events nm tz now =
      { prodid := "-//Timetable Generator//EN", version := "2.0", calname := nm, tzid := tz,
        events := (mergeAdjacentEvents events).filterMap
          (fun e => (createEvent dp tp now e).toOption) } :=
  generateIcs_closed_form dp tp events nm tz now

/-! ## C9: the core is not clock-independent -/

/-- C9 counterexample: two invocations of `generate_ics` on identical
inputs at clock instants `0` and `1` differ (in `DTSTAMP`), so the output
is not a pure function of the immutable inputs. -/
theorem c9_not_clock_free :
    generateIcs dpFix tpFix [evSample] "Cal" "UTC" 0 ≠
      generateIcs dpFix tpFix [evSample] "Cal" "UTC" 1 := by
  decide

theorem createEvent_dtstamp (dp : String → Option Int) (tp : String → Option (Nat × Nat))
    (t : Int) (e : EventRecord) :
    createEvent dp tp t e =
      (createEvent dp tp 0 e).map (fun v => { v with dtstamp := t }) := by
  unfold createEvent
  cases eventTimes dp tp e <;> rfl

/-- C9 amended: `generate_ics` is deterministic apart from the
clock-derived `DTSTAMP` field — for any fixed inputs, invocations at any
two clock instants agree after erasing every event's `DTSTAMP`. -/
theorem c9_deterministic_modulo_dtstamp (dp : String → Option Int)
    (tp : String → Option (Nat × Nat)) (events : List EventRecord)
    (nm tz : String) (t₁ t₂ : Int) :
    stripStamps (generateIcs dp tp events nm tz t₁) =
      stripStamps (generateIcs dp tp events nm tz t₂) := by
  rw [generateIcs_closed_form dp tp events nm tz t₁, generateIcs_closed_form dp tp events nm tz t₂]
  unfold stripStamps
  simp only [List.map_filterMap]
  have hfun : (fun e => ((createEvent dp tp t₁ e).toOption).map stripStamp) =
      (fun e => ((createEvent dp tp t₂ e).toOption).map stripStamp) := by
    funext e
    rw [createEvent_dtstamp dp tp t₁ e, createEvent_dtstamp dp tp t₂ e]
    cases createEvent dp tp 0 e <;> rfl
  rw [hfun]

/-! ## C10: the implicit 45-minute default reminder -/

/-- C10: when `reminder_minutes` is absent, `_create_event` attaches
exactly one DISPLAY alarm triggering 45 minutes before the start, while a
zero or negative `reminder_minutes` yields no alarm. -/
theorem c10_default_reminder (dp : String → Option Int) (tp : String → Option (Nat × Nat))
    (now : Int) (e : EventRecord) (v : VEvent)
    (hok : createEvent dp tp now e = .ok v) :
    (e.reminder = none →
      v.alarm = some ⟨"DISPLAY", "Reminder: " ++ (e.title.getD "Event"), -45⟩) ∧
    (∀ r, e.reminder = some r → r ≤ 0 → v.alarm = none) := by
  have halarm : v.alarm = alarmOf e := by
    unfold createEvent at hok
    cases h : eventTimes dp tp e with
    | error err => rw [h] at hok; exact absurd hok (by simp [Except.map])
    | ok se =>
      rw [h] at hok
      simp only [Except.map, Except.ok.injEq] at hok
      rw [← hok]
  refine ⟨fun hr => ?_, fun r hr hle => ?_⟩
  · rw [halarm]; unfold alarmOf; rw [hr]; norm_num
  · rw [halarm]; unfold alarmOf; rw [hr]
    simp only [Option.getD_some]
    split_ifs with hcond
    · exact absurd hcond.2 (by omega)
    · rfl

/-- Witness for C10 at a concrete record with no `reminder_minutes`. -/
theorem c10_default_reminder_witness :
    createEvent dpFix tpFix 0 evSample = .ok vSample ∧
    vSample.alarm = some ⟨"DISPLAY", "Reminder: " ++ (evSample.title.getD "Event"), -45⟩ :=
  ⟨by rfl, (c10_default_reminder dpFix tpFix 0 evSample vSample (by rfl)).1 rfl⟩

/-! ## Order lemmas for the colon-stripped sort key -/

theorem lexLt_irrefl (l : List Char) : lexLt l l = false := by
  induction l with
  | nil => rfl
  | cons a as ih => unfold lexLt; simp [ih]

theorem lexLt_nil_cons (b : Char) (bs : List Char) : lexLt [] (b :: bs) = true := rfl

theorem lexLt_nil_right (a : List Char) : lexLt a [] = false := by
  cases a <;> rfl

theorem lexLt_cons_cons (x y : Char) (xs ys : List Char) :
    lexLt (x :: xs) (y :: ys) =
      if x < y then true else if y < x then false else lexLt xs ys := rfl

theorem lexLt_asymm : ∀ (a b : List Char), lexLt a b = true → lexLt b a = false := by
  intro a
  induction a with
  | nil => intro b _; exact lexLt_nil_right b
  | cons x xs ih =>
    intro b hab
    cases b with
    | nil => rw [lexLt_nil_right] at hab; exact absurd hab (by simp)
    | cons y ys =>
      rw [lexLt_cons_cons] at hab
      rw [lexLt_cons_cons]
      rcases lt_trichotomy x y with h | h | h
      · rw [if_neg (lt_asymm h), if_pos h]
      · subst h
        rw [if_neg (lt_irrefl x), if_neg (lt_irrefl x)] at hab
        rw [if_neg (lt_irrefl x), if_neg (lt_irrefl x)]
        exact ih ys hab
      · rw [if_neg (lt_asymm h), if_pos h] at hab
        exact absurd hab (by simp)

theorem lexLt_false_trans : ∀ (a b c : List Char),
    lexLt b a = false → lexLt c b = false → lexLt c a = false := by
  intro a
  induction a with
  | nil => intro b c _ _; exact lexLt_nil_right c
  | cons x xs ih =>
    intro b c h1 h2
    cases b with
    | nil => rw [lexLt_nil_cons] at h1; exact absurd h1 (by simp)
    | cons y ys =>
      cases c with
      | nil => rw [lexLt_nil_cons] at h2; exact absurd h2 (by simp)
      | cons z zs =>
        rw [lexLt_cons_cons] at h1 h2
        rw [lexLt_cons_cons]
        have hxy : ¬ y < x := fun hl => by
          rw [if_pos hl] at h1; exact absurd h1 (by simp)
        have hzy : ¬ z < y := fun hl => by
          rw [if_pos hl] at h2; exact absurd h2 (by simp)
        have hzx : ¬ z < x := fun hl =>
          absurd (lt_of_lt_of_le hl (le_of_not_lt hxy)) hzy
        rw [if_neg hzx]
        by_cases hxz : x < z
        · rw [if_pos hxz]
        · rw [if_neg hxz]
          have hxz' : x = z := le_antisymm (le_of_not_lt hzx) (le_of_not_lt hxz)
          have hyx' : y = x :=
            le_antisymm (hxz' ▸ le_of_not_lt hzy) (le_of_not_lt hxy)
          subst hxz'
          subst hyx'
          rw [if_neg (lt_irrefl y), if_neg (lt_irrefl y)] at h1
          rw [if_neg (lt_irrefl y), if_neg (lt_irrefl y)] at h2
          exact ih ys zs h1 h2

/-! ## Stable-insertion-sort lemmas -/

section SortLemmas

variable {α : Type}

theorem insortPE_perm (x : PE α) : ∀ (l : List (PE α)), (insortPE x l).Perm (x :: l) := by
  intro l
  induction l with
  | nil => exact List.Perm.refl _
  | cons y ys ih =>
    unfold insortPE
    split_ifs
    · exact (ih.cons y).trans (List.Perm.swap x y ys)
    · exact List.Perm.refl _

theorem sortPE_perm : ∀ (l : List (PE α)), (sortPE l).Perm l := by
  intro l
  induction l with
  | nil => exact List.Perm.refl _
  | cons x xs ih =>
    unfold sortPE
    exact (insortPE_perm x (sortPE xs)).trans (ih.cons x)

theorem mem_insortPE {x z : PE α} {l : List (PE α)} (h : z ∈ insortPE x l) :
    z = x ∨ z ∈ l := by
  have := (insortPE_perm x l).mem_iff.mp h
  simpa using this

theorem insortPE_pairwise (x : PE α) (l : List (PE α))
    (hl : l.Pairwise (fun p q => lexLt (skey q) (skey p) = false)) :
    (insortPE x l).Pairwise (fun p q => lexLt (skey q) (skey p) = false) := by
  induction l with
  | nil => simp [insortPE]
  | cons y ys ih =>
    rcases List.pairwise_cons.mp hl with ⟨hy, hys⟩
    unfold insortPE
    split_ifs with hlt
    · refine List.pairwise_cons.mpr ⟨?_, ih hys⟩
      intro z hz
      rcases mem_insortPE hz with rfl | hz'
      · exact lexLt_asymm _ _ hlt
      · exact hy z hz'
    · refine List.pairwise_cons.mpr ⟨?_, hl⟩
      intro z hz
      have hxy : lexLt (skey y) (skey x) = false := by
        simpa using hlt
      rcases List.mem_cons.mp hz with rfl | hz'
      · exact hxy
      · exact lexLt_false_trans (skey x) (skey y) (skey z) hxy (hy z hz')

theorem sortPE_pairwise : ∀ (l : List (PE α)),
    (sortPE l).Pairwise (fun p q => lexLt (skey q) (skey p) = false) := by
  intro l
  induction l with
  | nil => simp [sortPE]
  | cons x xs ih =>
    unfold sortPE
    exact insortPE_pairwise x (sortPE xs) ih

theorem sortPE_eq_self : ∀ (l : List (PE α)),
    l.Pairwise (fun p q => lexLt (skey q) (skey p) = false) → sortPE l = l := by
  intro l
  induction l with
  | nil => intro _; rfl
  | cons x xs ih =>
    intro hl
    rcases List.pairwise_cons.mp hl with ⟨hx, hxs⟩
    unfold sortPE
    rw [ih hxs]
    cases xs with
    | nil => rfl
    | cons y ys =>
      unfold insortPE
      rw [if_neg (by simp [hx y (by simp)])]

theorem insortPE_filter (x : PE α) (k : List Char) : ∀ (l : List (PE α)),
    (insortPE x l).filter (fun p => skey p == k) =
      if skey x == k then x :: l.filter (fun p => skey p == k)
      else l.filter (fun p => skey p == k) := by
  intro l
  induction l with
  | nil =>
    unfold insortPE
    rw [List.filter_cons]
  | cons y ys ih =>
    unfold insortPE
    by_cases hlt : lexLt (skey y) (skey x) = true
    · rw [if_pos hlt, List.filter_cons, ih, List.filter_cons]
      by_cases hy : (skey y == k) = true
      · by_cases hx : (skey x == k) = true
        · exfalso
          have h1 : skey y = k := by simpa using hy
          have h2 : skey x = k := by simpa using hx
          rw [h1, h2, lexLt_irrefl] at hlt
          exact absurd hlt (by simp)
        · simp [hy, hx]
      · by_cases hx : (skey x == k) = true <;> simp [hy, hx]
    · rw [if_neg hlt, List.filter_cons, List.filter_cons]

theorem sortPE_filter (k : List Char) : ∀ (l : List (PE α)),
    (sortPE l).filter (fun p => skey p == k) = l.filter (fun p => skey p == k) := by
  intro l
  induction l with
  | nil => rfl
  | cons x xs ih =>
    unfold sortPE
    rw [insortPE_filter, ih, List.filter_cons]

end SortLemmas

/-! ## Run-decomposition lemmas for the merge loop -/

section RunLemmas

variable {α : Type}

theorem takeRun_len : ∀ (l : List (PE α)) (d : List Char), (takeRun d l).2 ≤ l.length := by
  intro l
  induction l with
  | nil => intro d; simp [takeRun]
  | cons p ps ih =>
    intro d
    unfold takeRun
    split_ifs
    · have := ih (effEnd p.2)
      simpa using this
    · simp

theorem takeRun_end : ∀ (l : List (PE α)) (d : List Char),
    (takeRun d l).1 = lastEffD d (l.take (takeRun d l).2) := by
  intro l
  induction l with
  | nil => intro d; simp [takeRun, lastEffD]
  | cons p ps ih =>
    intro d
    unfold takeRun
    split_ifs
    · simpa [List.take_succ_cons, lastEffD] using ih (effEnd p.2)
    · simp [lastEffD]

theorem takeRun_stop : ∀ (l : List (PE α)) (d : List Char) (x : PE α) (xs : List (PE α)),
    l.drop (takeRun d l).2 = x :: xs → canMerge (takeRun d l).1 x.2.start = false := by
  intro l
  induction l with
  | nil => intro d x xs h; simp [takeRun] at h
  | cons p ps ih =>
    intro d x xs h
    unfold takeRun at h ⊢
    split_ifs at h ⊢ with hc
    · exact ih (effEnd p.2) x xs (by simpa using h)
    · simp only [List.drop_zero] at h
      cases h
      simpa using hc

theorem mergeRunsF_flatten : ∀ (fuel : Nat) (l : List (PE α)), l.length ≤ fuel →
    (mergeRunsF fuel l).flatMap (fun r => r.1 :: r.2.1) = l := by
  intro fuel
  induction fuel with
  | zero =>
    intro l hl
    cases l with
    | nil => rfl
    | cons p ps => simp at hl
  | succ fuel ih =>
    intro l hl
    cases l with
    | nil => rfl
    | cons p ps =>
      simp only [mergeRunsF, List.flatMap_cons]
      rw [ih (ps.drop (takeRun (effEnd p.2) ps).2)
        (by simp only [List.length_drop]; simp only [List.length_cons] at hl; omega)]
      simp [List.take_append_drop]

theorem mergeRuns_flatten (l : List (PE α)) :
    (mergeRuns l).flatMap (fun r => r.1 :: r.2.1) = l :=
  mergeRunsF_flatten l.length l le_rfl

theorem mergeRunsF_end_eq : ∀ (fuel : Nat) (l : List (PE α))
    (r : PE α × List (PE α) × List Char), r ∈ mergeRunsF fuel l →
    r.2.2 = lastEffD (effEnd r.1.2) r.2.1 := by
  intro fuel
  induction fuel with
  | zero =>
    intro l r hr
    cases l <;> simp [mergeRunsF] at hr
  | succ fuel ih =>
    intro l r hr
    cases l with
    | nil => simp [mergeRunsF] at hr
    | cons p ps =>
      simp only [mergeRunsF, List.mem_cons] at hr
      rcases hr with rfl | hr'
      · exact takeRun_end ps (effEnd p.2)
      · exact ih _ r hr'

theorem mergeRuns_end_eq (l : List (PE α)) (r : PE α × List (PE α) × List Char)
    (hr : r ∈ mergeRuns l) : r.2.2 = lastEffD (effEnd r.1.2) r.2.1 :=
  mergeRunsF_end_eq l.length l r hr

theorem mergeRunsF_chain : ∀ (fuel : Nat) (l : List (PE α)),
    List.Chain' (fun r s => canMerge r.2.2 s.1.2.start = false) (mergeRunsF fuel l) := by
  intro fuel
  induction fuel with
  | zero =>
    intro l
    cases l <;> simp [mergeRunsF]
  | succ fuel ih =>
    intro l
    cases l with
    | nil => simp [mergeRunsF]
    | cons p ps =>
      simp only [mergeRunsF]
      rw [List.chain'_cons']
      refine ⟨?_, ih _⟩
      intro s hs
      cases hps : ps.drop (takeRun (effEnd p.2) ps).2 with
      | nil => rw [hps] at hs; cases fuel <;> simp [mergeRunsF] at hs
      | cons q qs =>
        rw [hps] at hs
        cases fuel with
        | zero => simp [mergeRunsF] at hs
        | succ fuel' =>
          simp only [mergeRunsF, List.head?_cons, Option.mem_def, Option.some.injEq] at hs
          subst hs
          exact takeRun_stop ps (effEnd p.2) q qs hps

theorem mergeRuns_chain (l : List (PE α)) :
    List.Chain' (fun r s => canMerge r.2.2 s.1.2.start = false) (mergeRuns l) :=
  mergeRunsF_chain l.length l

theorem mergeRunsF_heads_sublist : ∀ (fuel : Nat) (l : List (PE α)),
    ((mergeRunsF fuel l).map (fun r => r.1)).Sublist l := by
  intro fuel
  induction fuel with
  | zero =>
    intro l
    cases l <;> simp [mergeRunsF]
  | succ fuel ih =>
    intro l
    cases l with
    | nil => simp [mergeRunsF]
    | cons p ps =>
      simp only [mergeRunsF, List.map_cons]
      exact ((ih _).trans (List.drop_sublist _ ps)).cons₂ p

theorem mergeRuns_heads_sublist (l : List (PE α)) :
    ((mergeRuns l).map (fun r => r.1)).Sublist l :=
  mergeRunsF_heads_sublist l.length l

theorem mergeRunsF_singletons : ∀ (fuel : Nat) (l : List (PE α)), l.length ≤ fuel →
    l.Chain' (fun p q => canMerge (effEnd p.2) q.2.start = false) →
    mergeRunsF fuel l = l.map (fun p => (p, ([] : List (PE α)), effEnd p.2)) := by
  intro fuel
  induction fuel with
  | zero =>
    intro l hl _
    cases l with
    | nil => rfl
    | cons p ps => simp at hl
  | succ fuel ih =>
    intro l hl hch
    cases l with
    | nil => rfl
    | cons p ps =>
      have h0 : takeRun (effEnd p.2) ps = (effEnd p.2, 0) := by
        cases ps with
        | nil => rfl
        | cons q qs =>
          unfold takeRun
          rw [if_neg (by simp [(List.chain'_cons.mp hch).1])]
      simp only [mergeRunsF, h0, List.take_zero, List.drop_zero, List.map_cons]
      refine congrArg _ ?_
      exact ih ps (by simp only [List.length_cons] at hl; omega) hch.tail

theorem mergeRuns_singletons (l : List (PE α))
    (hch : l.Chain' (fun p q => canMerge (effEnd p.2) q.2.start = false)) :
    mergeRuns l = l.map (fun p => (p, ([] : List (PE α)), effEnd p.2)) :=
  mergeRunsF_singletons l.length l le_rfl hch

end RunLemmas

/-! ## Well-formedness of parsed time strings -/

theorem digit_not_space {c : Char} (h : c.isDigit = true) : isPySpace c = false := by
  unfold isPySpace
  by_contra hcon
  simp only [Bool.not_eq_false, Bool.or_eq_true, beq_iff_eq] at hcon
  rcases hcon with ((((h1 | h2) | h3) | h4) | h5) | h6 <;> subst_vars <;>
    exact absurd h (by decide)

theorem wfTime_ne_nil {l : List Char} (h : wfTime l) : l ≠ [] := by
  rcases h with ⟨a, c, d, rfl, _⟩ | ⟨a, b, c, d, rfl, _⟩ <;> simp

theorem oneDigit_wf {a : Char} (ha : a.isDigit = true) :
    ∀ {r1 s rest : List Char}, parseHHMM.oneDigit a r1 = some (s, rest) →
      wfTime s ∧ a :: r1 = s ++ rest := by
  intro r1 s rest h
  rcases r1 with _ | ⟨c, _ | ⟨m1, _ | ⟨m2, r⟩⟩⟩
  · simp [parseHHMM.oneDigit] at h
  · simp [parseHHMM.oneDigit] at h
  · simp [parseHHMM.oneDigit] at h
  · rw [show parseHHMM.oneDigit a (c :: m1 :: m2 :: r) =
        if (c == ':' && m1.isDigit && m2.isDigit) = true then some ([a, c, m1, m2], r)
        else none from rfl] at h
    split_ifs at h with hcond
    · simp only [Option.some.injEq, Prod.mk.injEq] at h
      obtain ⟨hs, hrest⟩ := h
      subst hs; subst hrest
      simp only [Bool.and_eq_true, beq_iff_eq] at hcond
      obtain ⟨⟨hc, h1⟩, h2⟩ := hcond
      subst hc
      exact ⟨Or.inl ⟨a, m1, m2, rfl, ha, h1, h2⟩, rfl⟩

theorem parseHHMM_wf : ∀ {l s rest : List Char}, parseHHMM l = some (s, rest) →
    wfTime s ∧ l = s ++ rest := by
  intro l s rest h
  rcases l with _ | ⟨a, _ | ⟨b, _ | ⟨c, _ | ⟨m1, _ | ⟨m2, r3⟩⟩⟩⟩⟩
  · simp [parseHHMM] at h
  · rw [show parseHHMM [a] = if a.isDigit = true then none else none from by
        unfold parseHHMM parseHHMM.oneDigit; rfl] at h
    split_ifs at h
  · rw [show parseHHMM [a, b] = if a.isDigit = true then none else none from by
        unfold parseHHMM parseHHMM.oneDigit; rfl] at h
    split_ifs at h
  · rw [show parseHHMM [a, b, c] =
        if a.isDigit = true then parseHHMM.oneDigit a [b, c] else none from rfl] at h
    split_ifs at h with ha
    · simp [parseHHMM.oneDigit] at h
  · rw [show parseHHMM [a, b, c, m1] =
        if a.isDigit = true then parseHHMM.oneDigit a [b, c, m1] else none from rfl] at h
    split_ifs at h with ha
    · exact oneDigit_wf ha h
  · rw [show parseHHMM (a :: b :: c :: m1 :: m2 :: r3) =
        if a.isDigit = true then
          (if (b.isDigit && c == ':' && m1.isDigit && m2.isDigit) = true then
            some ([a, b, c, m1, m2], r3)
          else parseHHMM.oneDigit a (b :: c :: m1 :: m2 :: r3))
        else none from rfl] at h
    split_ifs at h with ha hcond
    · simp only [Option.some.injEq, Prod.mk.injEq] at h
      obtain ⟨hs, hrest⟩ := h
      subst hs; subst hrest
      simp only [Bool.and_eq_true, beq_iff_eq] at hcond
      obtain ⟨⟨⟨h1, hc⟩, h2⟩, h3⟩ := hcond
      subst hc
      exact ⟨Or.inr ⟨a, b, m1, m2, rfl, ha, h1, h2, h3⟩, rfl⟩
    · exact oneDigit_wf ha h

theorem parseHHMM_append {s : List Char} (h : wfTime s) (rest : List Char) :
    parseHHMM (s ++ rest) = some (s, rest) := by
  rcases h with ⟨a, c, d, rfl, ha, hc, hd⟩ | ⟨a, b, c, d, rfl, ha, hb, hc, hd⟩
  · cases rest with
    | nil =>
      unfold parseHHMM parseHHMM.oneDigit
      simp [ha, hc, hd]
    | cons r0 rs =>
      unfold parseHHMM parseHHMM.oneDigit
      simp [ha, hc, hd]
  · unfold parseHHMM
    simp [ha, hb, hc, hd]

theorem parseTimeRangeChars_concat {s e : List Char} (hs : wfTime s) (he : wfTime e) :
    parseTimeRangeChars (s ++ '-' :: e) = some ⟨s, some e⟩ := by
  have hde : List.dropWhile isPySpace e = e := by
    rcases he with ⟨a, c, d, rfl, ha, _⟩ | ⟨a, b, c, d, rfl, ha, _⟩ <;>
      exact List.dropWhile_cons_of_neg (by simp [digit_not_space ha])
  have h2 : parseHHMM e = some (e, []) := by
    have := parseHHMM_append he []
    rwa [List.append_nil] at this
  unfold parseTimeRangeChars
  rw [parseHHMM_append hs ('-' :: e)]
  show (match List.dropWhile isPySpace ('-' :: e) with
    | '-' :: r2 =>
      match parseHHMM (List.dropWhile isPySpace r2) with
      | some (e, _) => some (⟨s, some e⟩ : PTime)
      | none => some ⟨s, none⟩
    | _ => some ⟨s, none⟩) = some ⟨s, some e⟩
  rw [List.dropWhile_cons_of_neg (by decide)]
  show (match parseHHMM (List.dropWhile isPySpace e) with
    | some (e, _) => some (⟨s, some e⟩ : PTime)
    | none => some ⟨s, none⟩) = some ⟨s, some e⟩
  rw [hde, h2]

theorem parseTimeRange_concat {s e : List Char} (hs : wfTime s) (he : wfTime e) :
    parseTimeRange ⟨s ++ '-' :: e⟩ = some ⟨s, some e⟩ := by
  unfold parseTimeRange
  rw [if_neg]
  · exact parseTimeRangeChars_concat hs he
  · intro hcon
    have : s ++ '-' :: e = ([] : List Char) := by
      have h2 := congrArg String.data hcon
      simp at h2
    simp at this

theorem parseTimeRangeChars_wf {l : List Char} {pt : PTime}
    (h : parseTimeRangeChars l = some pt) :
    wfTime pt.start ∧ ∀ e, pt.stop = some e → wfTime e := by
  unfold parseTimeRangeChars at h
  split at h
  · simp at h
  · rename_i s rest heq
    have hwf := (parseHHMM_wf heq).1
    split at h
    · split at h
      · rename_i e rst heq2
        have hwf2 := (parseHHMM_wf heq2).1
        simp only [Option.some.injEq] at h
        subst h
        refine ⟨hwf, fun e' he' => ?_⟩
        simp only [Option.some.injEq] at he'
        rw [← he']
        exact hwf2
      · simp only [Option.some.injEq] at h
        subst h
        exact ⟨hwf, by simp⟩
    · simp only [Option.some.injEq] at h
      subst h
      exact ⟨hwf, by simp⟩

theorem parseTimeRange_wf {s : String} {pt : PTime} (h : parseTimeRange s = some pt) :
    wfTime pt.start ∧ ∀ e, pt.stop = some e → wfTime e := by
  unfold parseTimeRange at h
  split_ifs at h
  exact parseTimeRangeChars_wf h

theorem effEnd_wf {p : PTime} (hs : wfTime p.start)
    (he : ∀ e, p.stop = some e → wfTime e) : wfTime (effEnd p) := by
  obtain ⟨st, stop⟩ := p
  cases stop with
  | none => exact hs
  | some e =>
    have hwe := he e rfl
    show wfTime (if e.isEmpty = true then st else e)
    rw [if_neg (by simpa using wfTime_ne_nil hwe)]
    exact hwe

/-! ## C2: the group scan order -/

/-- C2 counterexample: same-group events `8:30` (510 minutes) and `10:00`
(600 minutes) are scanned — and therefore emitted — in the order `10:00`,
`8:30`: the sort key is the colon-stripped *string* (`"1000" < "830"`
lexicographically), not minutes since midnight. -/
theorem c2_scan_order_counterexample :
    mergeAdjacentEvents [evHalfNine, evTen] = [evTen, evHalfNine] ∧
    timeToMinutes "8:30".data = some 510 ∧
    timeToMinutes "10:00".data = some 600 ∧
    lexLt (sortKeyOf ⟨"10:00".data, none⟩) (sortKeyOf ⟨"8:30".data, none⟩) = true :=
  ⟨rfl, rfl, rfl, rfl⟩

/-- C2 amended: within a group, `_merge_adjacent_events` scans the
parseable events sorted ascending by the *lexicographic* order of the
colon-stripped start string (`start.replace(':', '')` compared as a
Python string), with ties keeping the original relative order: `sortPE`
(the sort applied inside `processGroup`/`mergeCore`) permutes its input,
orders it by that key, and preserves the relative order of any fixed
key's elements.  This coincides with numeric minute order only when the
compared keys have equal length. -/
theorem c2_scan_order_amended {α : Type} (l : List (PE α)) :
    (sortPE l).Perm l ∧
    (sortPE l).Pairwise (fun p q => lexLt (skey q) (skey p) = false) ∧
    ∀ k : List Char, (sortPE l).filter (fun p => skey p == k) =
      l.filter (fun p => skey p == k) :=
  ⟨sortPE_perm l, sortPE_pairwise l, fun k => sortPE_filter k l⟩

/-! ## Naturality: the index-instrumented merge projects onto the merge -/

section Naturality

variable {α β : Type} (f : α → β)
variable (evA : α → EventRecord) (evB : β → EventRecord)
variable (setA : α → String → α) (setB : β → String → β)

theorem skey_mk {γ : Type} (b : γ) (pt : PTime) : skey (b, pt) = sortKeyOf pt := rfl

theorem attachPE_map (hev : ∀ a, evB (f a) = evA a) (a : α) :
    attachPE evB (f a) = (attachPE evA a).map (fun p => ((f p.1, p.2) : PE β)) := by
  unfold attachPE
  rw [hev]
  cases parseTimeRange ((evA a).time.getD "") <;> rfl

theorem filterMap_attach_map (hev : ∀ a, evB (f a) = evA a) (g : List α) :
    (g.map f).filterMap (attachPE evB) =
      (g.filterMap (attachPE evA)).map (fun p => ((f p.1, p.2) : PE β)) := by
  induction g with
  | nil => rfl
  | cons a as ih =>
    simp only [List.map_cons, List.filterMap_cons, attachPE_map f evA evB hev a]
    cases attachPE evA a <;> simp [ih]

theorem insortPE_map (x : PE α) (l : List (PE α)) :
    insortPE ((f x.1, x.2) : PE β) (l.map (fun p => ((f p.1, p.2) : PE β))) =
      (insortPE x l).map (fun p => ((f p.1, p.2) : PE β)) := by
  induction l with
  | nil => rfl
  | cons y ys ih =>
    simp only [List.map_cons]
    unfold insortPE
    simp only [skey_mk, skey]
    by_cases hlt : lexLt (sortKeyOf y.2) (sortKeyOf x.2) = true
    · rw [if_pos hlt, if_pos hlt, ih, List.map_cons]
    · rw [if_neg hlt, if_neg hlt, List.map_cons, List.map_cons]

theorem sortPE_map (l : List (PE α)) :
    sortPE (l.map (fun p => ((f p.1, p.2) : PE β))) =
      (sortPE l).map (fun p => ((f p.1, p.2) : PE β)) := by
  induction l with
  | nil => rfl
  | cons x xs ih =>
    simp only [List.map_cons]
    unfold sortPE
    rw [ih, insortPE_map f x (sortPE xs)]

theorem takeRun_map : ∀ (l : List (PE α)) (d : List Char),
    takeRun d (l.map (fun p => ((f p.1, p.2) : PE β))) = takeRun d l := by
  intro l
  induction l with
  | nil => intro d; rfl
  | cons p ps ih =>
    intro d
    simp only [List.map_cons]
    unfold takeRun
    by_cases hc : canMerge d p.2.start = true
    · rw [if_pos hc, if_pos hc, ih (effEnd p.2)]
    · rw [if_neg hc, if_neg hc]

theorem mergeRunsF_map : ∀ (fuel : Nat) (l : List (PE α)),
    mergeRunsF fuel (l.map (fun p => ((f p.1, p.2) : PE β))) =
      (mergeRunsF fuel l).map
        (fun r => ((f r.1.1, r.1.2), r.2.1.map (fun p => ((f p.1, p.2) : PE β)), r.2.2)) := by
  intro fuel
  induction fuel with
  | zero => intro l; cases l <;> rfl
  | succ fuel ih =>
    intro l
    cases l with
    | nil => rfl
    | cons p ps =>
      simp only [List.map_cons, mergeRunsF, takeRun_map f ps (effEnd p.2),
        ← List.map_take, ← List.map_drop, ih (ps.drop (takeRun (effEnd p.2) ps).2),
        List.map_cons]

theorem mergeRuns_map (l : List (PE α)) :
    mergeRuns (l.map (fun p => ((f p.1, p.2) : PE β))) =
      (mergeRuns l).map
        (fun r => ((f r.1.1, r.1.2), r.2.1.map (fun p => ((f p.1, p.2) : PE β)), r.2.2)) := by
  unfold mergeRuns
  rw [List.length_map]
  exact mergeRunsF_map f l.length l

theorem emitRun_map (hset : ∀ a s, f (setA a s) = setB (f a) s)
    (h : PE α) (t : List (PE α)) (e : List Char) :
    emitRun setB ((f h.1, h.2) : PE β) (t.map (fun p => ((f p.1, p.2) : PE β))) e =
      f (emitRun setA h t e) := by
  unfold emitRun
  cases t with
  | nil => rfl
  | cons q qs => exact (hset _ _).symm

theorem processGroup_map (hev : ∀ a, evB (f a) = evA a)
    (hset : ∀ a s, f (setA a s) = setB (f a) s) (g : List α) :
    processGroup evB setB (g.map f) = (processGroup evA setA g).map f := by
  match g with
  | [] => rfl
  | [a] => rfl
  | a :: b :: rest =>
    show (mergeRuns (sortPE (List.filterMap (attachPE evB) (f a :: f b :: rest.map f)))).map
        (fun r => emitRun setB r.1 r.2.1 r.2.2) =
      ((mergeRuns (sortPE (List.filterMap (attachPE evA) (a :: b :: rest)))).map
        (fun r => emitRun setA r.1 r.2.1 r.2.2)).map f
    rw [show f a :: f b :: rest.map f = (a :: b :: rest).map f by simp]
    rw [filterMap_attach_map f evA evB hev, sortPE_map f, mergeRuns_map f]
    simp only [List.map_map]
    refine List.map_congr_left fun r _ => ?_
    simp only [Function.comp_apply]
    exact emitRun_map f setA setB hset r.1 r.2.1 r.2.2

theorem groupKeys_map (hev : ∀ a, evB (f a) = evA a) (l : List α) :
    groupKeys evB (l.map f) = groupKeys evA l := by
  induction l with
  | nil => rfl
  | cons a as ih =>
    simp only [List.map_cons]
    unfold groupKeys
    rw [hev, ih]

theorem mergeCore_map (hev : ∀ a, evB (f a) = evA a)
    (hset : ∀ a s, f (setA a s) = setB (f a) s) (l : List α) :
    mergeCore evB setB (l.map f) = (mergeCore evA setA l).map f := by
  cases l with
  | nil => rfl
  | cons a as =>
    unfold mergeCore
    rw [if_neg (by simp), if_neg (by simp)]
    rw [show (a :: as).map f = List.map f (a :: as) from rfl]
    rw [groupKeys_map f evA evB hev (a :: as)]
    rw [List.map_flatMap]
    have hpt : ∀ k, processGroup evB setB
          ((List.map f (a :: as)).filter (fun b => mergeKey (evB b) == k)) =
        (processGroup evA setA ((a :: as).filter (fun x => mergeKey (evA x) == k))).map f := by
      intro k
      rw [List.filter_map]
      rw [show ((fun b => mergeKey (evB b) == k) ∘ f) = (fun x => mergeKey (evA x) == k)
        from funext fun x => by rw [Function.comp_apply, hev]]
      exact processGroup_map f evA evB setA setB hev hset _
    simp only [hpt]

end Naturality

theorem mergeEnum_proj (events : List EventRecord) :
    (mergeEnum events).map Prod.snd = mergeAdjacentEvents events := by
  unfold mergeEnum mergeAdjacentEvents
  have h := mergeCore_map Prod.snd Prod.snd (id : EventRecord → EventRecord)
      (fun a s => (a.1, setTime a.2 s)) setTime (fun a => rfl) (fun a s => rfl) events.enum
  rw [List.enum_map_snd] at h
  exact h.symm

/-! ## C1: merge lineage coverage -/

/-- C1 counterexample: two events share a `(date, title, location)` group;
the one whose time field (`"TBA"`) fails to parse a leading `H:MM` is
dropped — the merge output is just the parseable event, and input index 1
occurs in no output's merge lineage. -/
theorem c1_dropped_event_counterexample :
    mergeAdjacentEvents [evParseable, evUnparseable] = [evParseable] ∧
    mergeCoverage [evParseable, evUnparseable] = [0] ∧
    (mergeCoverage [evParseable, evUnparseable]).count 1 = 0 :=
  ⟨rfl, rfl, rfl⟩

section Coverage

variable {α : Type} (ev : α → EventRecord)

theorem groupKeys_nodup : ∀ (l : List α), (groupKeys ev l).Nodup := by
  intro l
  induction l with
  | nil => exact List.nodup_nil
  | cons a as ih =>
    unfold groupKeys
    refine List.Nodup.cons ?_ (List.Nodup.filter _ ih)
    intro hmem
    exact absurd (List.of_mem_filter hmem) (by simp)

theorem groupKeys_mem : ∀ {l : List α} {x : α}, x ∈ l → mergeKey (ev x) ∈ groupKeys ev l := by
  intro l
  induction l with
  | nil => intro x hx; simp at hx
  | cons a as ih =>
    intro x hx
    unfold groupKeys
    rcases List.mem_cons.mp hx with rfl | hx'
    · exact List.mem_cons_self _ _
    · by_cases hk : mergeKey (ev x) = mergeKey (ev a)
      · rw [hk]; exact List.mem_cons_self _ _
      · exact List.mem_cons_of_mem _ (List.mem_filter.mpr ⟨ih hx', by simpa using hk⟩)

theorem count_flatMap_groups [DecidableEq α] (l : List α) (x : α) :
    ∀ (ks : List String), ks.Nodup →
      ((ks.flatMap (fun k => l.filter (fun a => mergeKey (ev a) == k))).count x) =
        if mergeKey (ev x) ∈ ks then l.count x else 0 := by
  intro ks
  induction ks with
  | nil => intro _; simp
  | cons k ks ih =>
    intro hnd
    rcases List.nodup_cons.mp hnd with ⟨hk, hnd'⟩
    simp only [List.flatMap_cons, List.count_append, ih hnd']
    by_cases hxk : mergeKey (ev x) = k
    · have h1 : (l.filter (fun a => mergeKey (ev a) == k)).count x = l.count x := by
        apply List.count_filter
        simp [hxk]
      rw [h1, if_neg (hxk ▸ hk), if_pos (by simp [hxk])]
      omega
    · have h0 : (l.filter (fun a => mergeKey (ev a) == k)).count x = 0 := by
        apply List.count_eq_zero_of_not_mem
        intro hmem
        exact hxk (by simpa using List.of_mem_filter hmem)
      rw [h0]
      by_cases hin : mergeKey (ev x) ∈ ks
      · rw [if_pos hin, if_pos (List.mem_cons_of_mem _ hin)]; omega
      · rw [if_neg hin, if_neg (by simp [hxk, hin])]

theorem flatMap_groups_perm [DecidableEq α] (l : List α) :
    ((groupKeys ev l).flatMap
      (fun k => l.filter (fun a => mergeKey (ev a) == k))).Perm l := by
  rw [List.perm_iff_count]
  intro x
  rw [count_flatMap_groups ev l x (groupKeys ev l) (groupKeys_nodup ev l)]
  by_cases hx : x ∈ l
  · rw [if_pos (groupKeys_mem ev hx)]
  · rw [List.count_eq_zero_of_not_mem hx]
    split_ifs <;> rfl

theorem filterMap_attach_fst (g : List α) :
    (g.filterMap (attachPE ev)).map (fun p => p.1) =
      g.filter (fun a => (parseTimeRange ((ev a).time.getD "")).isSome) := by
  induction g with
  | nil => rfl
  | cons a as ih =>
    simp only [List.filterMap_cons, List.filter_cons]
    cases hpa : parseTimeRange ((ev a).time.getD "") with
    | none =>
      have h1 : attachPE ev a = none := by unfold attachPE; rw [hpa]; rfl
      simp [h1, ih, hpa]
    | some pt =>
      have h1 : attachPE ev a = some (a, pt) := by unfold attachPE; rw [hpa]; rfl
      simp [h1, ih, hpa]

theorem coverGroup_nonsingleton (g : List α) (hg : ∀ a : α, g ≠ [a]) :
    coverGroup ev g = (sortPE (g.filterMap (attachPE ev))).map (fun p => p.1) := by
  have hbr : coverGroup ev g = (mergeRuns (sortPE (g.filterMap (attachPE ev)))).flatMap
      (fun r => (r.1 :: r.2.1).map (fun p => p.1)) := by
    match g with
    | [] => rfl
    | [a] => exact absurd rfl (hg a)
    | a :: b :: rest => rfl
  rw [hbr]
  rw [← List.map_flatMap]
  rw [mergeRuns_flatten]

theorem coverGroup_perm_filter [DecidableEq α] (l : List α) (k : String)
    (g : List α) (hgdef : g = l.filter (fun a => mergeKey (ev a) == k)) :
    (coverGroup ev g).Perm (g.filter (eligB ev l)) := by
  match hg : g with
  | [a] =>
    have ha : a ∈ l.filter (fun a => mergeKey (ev a) == k) := by rw [← hgdef]; simp
    have hak : mergeKey (ev a) = k := by simpa using List.of_mem_filter ha
    have helig : eligB ev l a = true := by
      unfold eligB
      have : l.filter (fun b => mergeKey (ev b) == mergeKey (ev a)) = [a] := by
        rw [hak, ← hgdef]
      simp [this]
    show List.Perm [a] _
    rw [List.filter_cons, if_pos helig]
    exact List.Perm.refl _
  | [] => exact List.Perm.refl _
  | a :: b :: rest =>
    rw [coverGroup_nonsingleton ev (a :: b :: rest) (by simp)]
    have hperm : ((sortPE ((a :: b :: rest).filterMap (attachPE ev))).map
        (fun p => p.1)).Perm
        (((a :: b :: rest).filterMap (attachPE ev)).map (fun p => p.1)) :=
      (sortPE_perm _).map _
    rw [filterMap_attach_fst ev] at hperm
    refine hperm.trans ?_
    rw [List.filter_congr ?_]
    intro x hx
    have hxk : mergeKey (ev x) = k := by
      have := List.of_mem_filter (p := fun a => mergeKey (ev a) == k) (hgdef ▸ hx)
      simpa using this
    unfold eligB
    have hlen : l.filter (fun b => mergeKey (ev b) == mergeKey (ev x)) = a :: b :: rest := by
      rw [hxk, ← hgdef]
    rw [hlen]
    simp

theorem filter_flatMap {β : Type} (ks : List β) (h : β → List α) (p : α → Bool) :
    (ks.flatMap h).filter p = ks.flatMap (fun k => (h k).filter p) := by
  induction ks with
  | nil => rfl
  | cons k ks ih => simp only [List.flatMap_cons, List.filter_append, ih]

theorem perm_flatMap_congr {β : Type} (ks : List β) (h₁ h₂ : β → List α)
    (hp : ∀ k ∈ ks, (h₁ k).Perm (h₂ k)) :
    (ks.flatMap h₁).Perm (ks.flatMap h₂) := by
  induction ks with
  | nil => exact List.Perm.refl _
  | cons k ks ih =>
    simp only [List.flatMap_cons]
    exact (hp k (by simp)).append (ih (fun k' hk' => hp k' (by simp [hk'])))

theorem coverCore_perm [DecidableEq α] (l : List α) :
    (coverCore ev l).Perm (l.filter (eligB ev l)) := by
  cases l with
  | nil => exact List.Perm.refl _
  | cons a as =>
    unfold coverCore
    rw [if_neg (by simp)]
    refine (perm_flatMap_congr _ _ _ (fun k _ =>
      coverGroup_perm_filter ev (a :: as) k _ rfl)).trans ?_
    rw [← filter_flatMap]
    exact (flatMap_groups_perm ev (a :: as)).filter _

end Coverage

theorem count_fst_filter_enum (l : List EventRecord) (q : Nat × EventRecord → Bool)
    (i : Nat) (h : i < l.length) :
    ((l.enum.filter q).map Prod.fst).count i =
      if q (i, l.get ⟨i, h⟩) then 1 else 0 := by
  have hnd : ((l.enum.filter q).map Prod.fst).Nodup := by
    have hsub : ((l.enum.filter q).map Prod.fst).Sublist (l.enum.map Prod.fst) :=
      (List.filter_sublist _).map _
    rw [List.enum_map_fst] at hsub
    exact hsub.nodup (List.nodup_range _)
  by_cases hq : q (i, l.get ⟨i, h⟩) = true
  · rw [if_pos hq]
    apply List.count_eq_one_of_mem hnd
    apply List.mem_map.mpr
    refine ⟨(i, l.get ⟨i, h⟩), List.mem_filter.mpr ⟨?_, hq⟩, rfl⟩
    apply List.mk_mem_enum_iff_getElem?.mpr
    rw [List.getElem?_eq_getElem h, List.get_eq_getElem]
  · rw [if_neg hq]
    apply List.count_eq_zero_of_not_mem
    intro hmem
    obtain ⟨⟨j, e⟩, hjm, hj⟩ := List.mem_map.mp hmem
    obtain ⟨henum, hqe⟩ := List.mem_filter.mp hjm
    simp only at hj
    subst hj
    have hsome : l[j]? = some e := List.mk_mem_enum_iff_getElem?.mp henum
    rw [List.getElem?_eq_getElem h] at hsome
    have he : e = l.get ⟨j, h⟩ := by
      rw [List.get_eq_getElem]
      exact (Option.some.inj hsome).symm
    subst he
    exact hq hqe

theorem eligB_enum_iff (events : List EventRecord) (i : Nat) (h : i < events.length) :
    (eligB Prod.snd events.enum (i, events.get ⟨i, h⟩) = true) ↔ eligibleAt events i h := by
  unfold eligB eligibleAt
  have hlen : (events.enum.filter
      (fun b => mergeKey b.2 == mergeKey (events.get ⟨i, h⟩))).length =
      (events.filter (fun b => mergeKey b == mergeKey (events.get ⟨i, h⟩))).length := by
    rw [← List.countP_eq_length_filter, ← List.countP_eq_length_filter]
    have hm := List.countP_map
      (fun b => mergeKey b == mergeKey (events.get ⟨i, h⟩)) Prod.snd events.enum
    rw [List.enum_map_snd] at hm
    rw [show ((fun b => mergeKey b == mergeKey (events.get ⟨i, h⟩)) ∘ Prod.snd) =
      (fun b : Nat × EventRecord => mergeKey b.2 == mergeKey (events.get ⟨i, h⟩))
      from rfl] at hm
    exact hm.symm
  rw [Bool.or_eq_true, beq_iff_eq]
  show (events.enum.filter (fun b => mergeKey b.2 == mergeKey (events.get ⟨i, h⟩))).length
      = 1 ∨ _ ↔ _
  rw [hlen]

/-- C1 amended: every input event that sits in a singleton group or whose
time field parses a leading `H:MM` is covered by exactly one output
event's merge lineage; an event whose time fails to parse while its group
has two or more members is covered by none (it is dropped).  The
index-instrumented merge projects onto `_merge_adjacent_events` itself,
so the lineage accounting is about the real function. -/
theorem c1_merge_lineage_amended (events : List EventRecord) :
    (mergeEnum events).map Prod.snd = mergeAdjacentEvents events ∧
    ∀ i (h : i < events.length),
      (mergeCoverage events).count i = if eligibleAt events i h then 1 else 0 := by
  refine ⟨mergeEnum_proj events, fun i h => ?_⟩
  unfold mergeCoverage
  have hperm := (coverCore_perm Prod.snd events.enum).map Prod.fst
  rw [hperm.count_eq i]
  rw [count_fst_filter_enum events (eligB Prod.snd events.enum) i h]
  by_cases he : eligibleAt events i h
  · rw [if_pos he, if_pos ((eligB_enum_iff events i h).mpr he)]
  · rw [if_neg he, if_neg (fun hq => he ((eligB_enum_iff events i h).mp hq))]

/-- Witness for C1 amended at a concrete two-event input. -/
theorem c1_merge_lineage_amended_witness :
    0 < ([evParseable, evUnparseable] : List EventRecord).length ∧
    (mergeCoverage [evParseable, evUnparseable]).count 0 =
      (if eligibleAt [evParseable, evUnparseable] 0 (by decide) then 1 else 0) :=
  ⟨by decide, (c1_merge_lineage_amended [evParseable, evUnparseable]).2 0 (by decide)⟩

/-! ## C5: idempotence of the merge

The remaining lemmas are stated for the instance `ev := id`,
`setT := setTime`, i.e. for `mergeAdjacentEvents` itself. -/

theorem mem_attach_spec {g : List EventRecord} {p : PE EventRecord}
    (hp : p ∈ g.filterMap (attachPE id)) :
    p.1 ∈ g ∧ parseTimeRange (p.1.time.getD "") = some p.2 := by
  obtain ⟨a, ha, hpa⟩ := List.mem_filterMap.mp hp
  unfold attachPE at hpa
  cases hparse : parseTimeRange ((id a).time.getD "") with
  | none => rw [hparse] at hpa; simp at hpa
  | some pt =>
    rw [hparse] at hpa
    simp only [Option.map_some', Option.some.injEq] at hpa
    subst hpa
    exact ⟨ha, hparse⟩

theorem mem_of_mem_run {s : List (PE EventRecord)}
    {r : PE EventRecord × List (PE EventRecord) × List Char} (hr : r ∈ mergeRuns s) :
    r.1 ∈ s ∧ ∀ x ∈ r.2.1, x ∈ s := by
  constructor
  · exact (mergeRuns_heads_sublist s).subset (List.mem_map.mpr ⟨r, hr, rfl⟩)
  · intro x hx
    rw [← mergeRuns_flatten s]
    exact List.mem_flatMap.mpr ⟨r, hr, by simp [hx]⟩

theorem processGroup_keys {g : List EventRecord} {k : String}
    (hg : ∀ a ∈ g, mergeKey a = k) :
    ∀ e ∈ processGroup id setTime g, mergeKey e = k := by
  intro e he
  cases g with
  | nil =>
    rw [show processGroup id setTime ([] : List EventRecord) = [] from rfl] at he
    simp at he
  | cons a tail =>
    cases tail with
    | nil =>
      rw [show processGroup id setTime [a] = [a] from rfl] at he
      have he2 : e = a := by simpa using he
      rw [he2]
      exact hg a (by simp)
    | cons b rest =>
      have he' : e ∈ (mergeRuns (sortPE ((a :: b :: rest).filterMap (attachPE id)))).map
          (fun r => emitRun setTime r.1 r.2.1 r.2.2) := he
      obtain ⟨r, hr, hre⟩ := List.mem_map.mp he'
      have hr1 : r.1 ∈ sortPE ((a :: b :: rest).filterMap (attachPE id)) :=
        (mem_of_mem_run hr).1
      have hr1' : r.1 ∈ (a :: b :: rest).filterMap (attachPE id) :=
        (sortPE_perm _).mem_iff.mp hr1
      have hmem : r.1.1 ∈ (a :: b :: rest) := (mem_attach_spec hr1').1
      have hkey : mergeKey r.1.1 = k := hg _ hmem
      rw [← hre]
      unfold emitRun
      cases hre2 : r.2.1 <;> simp [hkey]

theorem groupKeys_cons (a : EventRecord) (l : List EventRecord) :
    groupKeys id (a :: l) =
      mergeKey a :: (groupKeys id l).filter (fun k => k ≠ mergeKey a) := rfl

theorem groupKeys_append_block (k : String) (xs ys : List EventRecord)
    (hxs : ∀ x ∈ xs, mergeKey x = k) :
    groupKeys id (xs ++ ys) =
      if xs.isEmpty then groupKeys id ys
      else k :: (groupKeys id ys).filter (fun k' => k' ≠ k) := by
  induction xs with
  | nil => simp
  | cons x xs ih =>
    have hxk : mergeKey x = k := hxs x (by simp)
    rw [List.cons_append, groupKeys_cons, hxk,
      ih (fun x' hx' => hxs x' (by simp [hx']))]
    rw [show (x :: xs).isEmpty = false from rfl]
    by_cases hxe : xs.isEmpty = true
    · rw [if_pos hxe, if_neg (by simp)]
    · rw [if_neg hxe, if_neg (by simp)]
      congr 1
      rw [List.filter_cons, if_neg (by simp)]
      rw [List.filter_filter]
      apply List.filter_congr
      intro k' _
      simp

theorem blocks_filter (ks : List String) (f : String → List EventRecord)
    (hks : ks.Nodup) (hf : ∀ k ∈ ks, ∀ e ∈ f k, mergeKey e = k) :
    ∀ k ∈ ks, (ks.flatMap f).filter (fun e => mergeKey (id e) == k) = f k := by
  induction ks with
  | nil => intro k hk; simp at hk
  | cons k0 ks ih =>
    intro k hk
    rcases List.nodup_cons.mp hks with ⟨hk0, hks'⟩
    simp only [List.flatMap_cons, List.filter_append]
    rcases List.mem_cons.mp hk with rfl | hk'
    · rw [List.filter_eq_self.mpr (fun e he => by
        simp [hf k (by simp) e he])]
      rw [List.filter_eq_nil_iff.mpr ?_, List.append_nil]
      intro e he
      obtain ⟨k', hk', he'⟩ := List.mem_flatMap.mp he
      have := hf k' (by simp [hk']) e he'
      simp only [id_eq, beq_iff_eq]
      rw [this]
      intro hcon
      exact hk0 (hcon ▸ hk')
    · rw [List.filter_eq_nil_iff.mpr ?_, List.nil_append]
      · exact ih hks' (fun k' hk'' e he => hf k' (by simp [hk'']) e he) k hk'
      · intro e he
        have := hf k0 (by simp) e he
        simp only [id_eq, beq_iff_eq]
        rw [this]
        intro hcon
        exact hk0 (hcon ▸ hk')

theorem blocks_groupKeys (ks : List String) (f : String → List EventRecord)
    (hks : ks.Nodup) (hf : ∀ k ∈ ks, ∀ e ∈ f k, mergeKey e = k) :
    groupKeys id (ks.flatMap f) = ks.filter (fun k => !(f k).isEmpty) := by
  induction ks with
  | nil => rfl
  | cons k0 ks ih =>
    rcases List.nodup_cons.mp hks with ⟨hk0, hks'⟩
    simp only [List.flatMap_cons]
    rw [groupKeys_append_block k0 (f k0) (ks.flatMap f) (hf k0 (by simp))]
    rw [ih hks' (fun k hk e he => hf k (by simp [hk]) e he)]
    by_cases hfe : (f k0).isEmpty = true
    · rw [if_pos hfe, List.filter_cons, if_neg (by simp [hfe])]
    · rw [if_neg hfe, List.filter_cons, if_pos (by simp [hfe])]
      congr 1
      apply List.filter_eq_self.mpr
      intro k' hk'
      have hk'' : k' ∈ ks := List.mem_of_mem_filter hk'
      simp only [ne_eq, decide_eq_true_eq]
      intro hcon
      exact hk0 (hcon ▸ hk'')

theorem flatMap_filter_nonempty {β : Type} (ks : List β) (f : β → List EventRecord) :
    (ks.filter (fun k => !(f k).isEmpty)).flatMap f = ks.flatMap f := by
  induction ks with
  | nil => rfl
  | cons k ks ih =>
    rw [List.filter_cons]
    by_cases hfe : (f k).isEmpty = true
    · rw [if_neg (by simp [hfe]), List.flatMap_cons, ih,
        List.isEmpty_iff.mp hfe, List.nil_append]
    · rw [if_pos (by simp [hfe]), List.flatMap_cons, List.flatMap_cons, ih]

theorem flatMap_congr_mem {β γ : Type} {f g : β → List γ} : ∀ {l : List β},
    (∀ a ∈ l, f a = g a) → l.flatMap f = l.flatMap g := by
  intro l
  induction l with
  | nil => intro _; rfl
  | cons x xs ih =>
    intro h
    rw [List.flatMap_cons, List.flatMap_cons, h x (by simp),
      ih (fun a ha => h a (by simp [ha]))]

theorem filterMap_some_of {β γ : Type} (h : β → γ) : ∀ (l : List β),
    l.filterMap (fun b => some (h b)) = l.map h := by
  intro l
  induction l with
  | nil => rfl
  | cons b bs ih => simp [List.filterMap_cons, ih]

theorem chain_imp_mem {β : Type} {R S : β → β → Prop} : ∀ {l : List β},
    l.Chain' R → (∀ a ∈ l, ∀ b ∈ l, R a b → S a b) → l.Chain' S := by
  intro l
  induction l with
  | nil => intro _ _; exact List.chain'_nil
  | cons x xs ih =>
    intro hch hmem
    rw [List.chain'_cons'] at hch ⊢
    refine ⟨?_, ih hch.2 (fun a ha b hb hr => hmem a (by simp [ha]) b (by simp [hb]) hr)⟩
    intro y hy
    have hy' : y ∈ xs := List.mem_of_mem_head? hy
    exact hmem x (by simp) y (by simp [hy']) (hch.1 y hy)

theorem lastEffD_wf {α : Type} : ∀ (t : List (PE α)) (d : List Char), wfTime d →
    (∀ p ∈ t, wfTime p.2.start ∧ ∀ e, p.2.stop = some e → wfTime e) →
    wfTime (lastEffD d t) := by
  intro t
  induction t with
  | nil => intro d hd _; exact hd
  | cons p ps ih =>
    intro d hd ht
    show wfTime (lastEffD (effEnd p.2) ps)
    exact ih (effEnd p.2) (effEnd_wf (ht p (by simp)).1 (ht p (by simp)).2)
      (fun q hq => ht q (by simp [hq]))

theorem ptOut_start {α : Type} (r : PE α × List (PE α) × List Char) :
    (ptOut r).start = r.1.2.start := by
  unfold ptOut
  split_ifs <;> rfl

theorem skey_emit (r : PE EventRecord × List (PE EventRecord) × List Char) :
    skey ((emitRun setTime r.1 r.2.1 r.2.2, ptOut r) : PE EventRecord) = skey r.1 := by
  show sortKeyOf (ptOut r) = sortKeyOf r.1.2
  unfold sortKeyOf
  rw [ptOut_start]

theorem sorted_attach_spec {g : List EventRecord} {p : PE EventRecord}
    (hp : p ∈ sortPE (g.filterMap (attachPE id))) :
    parseTimeRange (p.1.time.getD "") = some p.2 ∧
      wfTime p.2.start ∧ ∀ e, p.2.stop = some e → wfTime e := by
  have hp' := (sortPE_perm _).mem_iff.mp hp
  have hspec := mem_attach_spec hp'
  exact ⟨hspec.2, parseTimeRange_wf hspec.2⟩

theorem emit_parse {s : List (PE EventRecord)}
    {r : PE EventRecord × List (PE EventRecord) × List Char}
    (hr : r ∈ mergeRuns s)
    (hs : ∀ p ∈ s, parseTimeRange (p.1.time.getD "") = some p.2 ∧
      wfTime p.2.start ∧ ∀ e, p.2.stop = some e → wfTime e) :
    parseTimeRange ((emitRun setTime r.1 r.2.1 r.2.2).time.getD "") = some (ptOut r) ∧
      wfTime (ptOut r).start ∧ (∀ e, (ptOut r).stop = some e → wfTime e) ∧
      effEnd (ptOut r) = r.2.2 := by
  obtain ⟨hr1, hrt⟩ := mem_of_mem_run hr
  obtain ⟨hp1, hw1, hw2⟩ := hs r.1 hr1
  have hend : r.2.2 = lastEffD (effEnd r.1.2) r.2.1 := mergeRuns_end_eq s r hr
  have hwend : wfTime r.2.2 := by
    rw [hend]
    exact lastEffD_wf r.2.1 (effEnd r.1.2) (effEnd_wf hw1 hw2)
      (fun p hp => (hs p (hrt p hp)).2)
  by_cases hemp : r.2.1.isEmpty = true
  · have he1 : emitRun setTime r.1 r.2.1 r.2.2 = r.1.1 := by
      unfold emitRun; rw [if_pos hemp]
    have he2 : ptOut r = r.1.2 := by
      unfold ptOut; rw [if_pos hemp]
    rw [he1, he2]
    refine ⟨hp1, hw1, hw2, ?_⟩
    rw [hend, List.isEmpty_iff.mp hemp]
    rfl
  · have he1 : emitRun setTime r.1 r.2.1 r.2.2 =
        setTime r.1.1 ⟨r.1.2.start ++ '-' :: r.2.2⟩ := by
      unfold emitRun; rw [if_neg hemp]
    have he2 : ptOut r = ⟨r.1.2.start, some r.2.2⟩ := by
      unfold ptOut; rw [if_neg hemp]
    rw [he1, he2]
    refine ⟨?_, hw1, ?_, ?_⟩
    · show parseTimeRange ⟨r.1.2.start ++ '-' :: r.2.2⟩ = some ⟨r.1.2.start, some r.2.2⟩
      exact parseTimeRange_concat hw1 hwend
    · intro e hee
      have he3 : r.2.2 = e := by simpa using hee
      rw [← he3]
      exact hwend
    · show (if r.2.2.isEmpty = true then r.1.2.start else r.2.2) = r.2.2
      rw [if_neg (by simpa using wfTime_ne_nil hwend)]

theorem attach_out {s : List (PE EventRecord)}
    (hs : ∀ p ∈ s, parseTimeRange (p.1.time.getD "") = some p.2 ∧
      wfTime p.2.start ∧ ∀ e, p.2.stop = some e → wfTime e) :
    ((mergeRuns s).map (fun r => emitRun setTime r.1 r.2.1 r.2.2)).filterMap (attachPE id) =
      (mergeRuns s).map (fun r => (emitRun setTime r.1 r.2.1 r.2.2, ptOut r)) := by
  rw [List.filterMap_map]
  have hcongr : ∀ r ∈ mergeRuns s,
      (attachPE id ∘ fun r => emitRun setTime r.1 r.2.1 r.2.2) r =
        (fun r => some ((emitRun setTime r.1 r.2.1 r.2.2, ptOut r) : PE EventRecord)) r := by
    intro r hr
    have hp := (emit_parse hr hs).1
    show attachPE id (emitRun setTime r.1 r.2.1 r.2.2) = _
    unfold attachPE
    rw [show id (emitRun setTime r.1 r.2.1 r.2.2) = emitRun setTime r.1 r.2.1 r.2.2 from rfl]
    rw [hp]
    rfl
  rw [List.filterMap_congr hcongr]
  exact filterMap_some_of _ _

theorem processGroup_ne_small (g : List EventRecord) (h : ∀ a, g ≠ [a]) :
    processGroup id setTime g =
      (mergeRuns (sortPE (g.filterMap (attachPE id)))).map
        (fun r => emitRun setTime r.1 r.2.1 r.2.2) := by
  cases g with
  | nil => rfl
  | cons a t =>
    cases t with
    | nil => exact absurd rfl (h a)
    | cons b u => rfl

theorem merged_output_fixed {s : List (PE EventRecord)}
    (hs : ∀ p ∈ s, parseTimeRange (p.1.time.getD "") = some p.2 ∧
      wfTime p.2.start ∧ ∀ e, p.2.stop = some e → wfTime e)
    (hsort : s.Pairwise (fun p q => lexLt (skey q) (skey p) = false)) :
    processGroup id setTime
        ((mergeRuns s).map (fun r => emitRun setTime r.1 r.2.1 r.2.2)) =
      (mergeRuns s).map (fun r => emitRun setTime r.1 r.2.1 r.2.2) := by
  have hattach := attach_out hs
  have hpair : ((mergeRuns s).map
      (fun r => ((emitRun setTime r.1 r.2.1 r.2.2, ptOut r) : PE EventRecord))).Pairwise
      (fun p q => lexLt (skey q) (skey p) = false) := by
    rw [List.pairwise_map]
    have hheads : ((mergeRuns s).map (fun r => r.1)).Pairwise
        (fun p q => lexLt (skey q) (skey p) = false) :=
      List.Pairwise.sublist (mergeRuns_heads_sublist s) hsort
    have hheads' := List.pairwise_map.mp hheads
    refine hheads'.imp ?_
    intro a b h
    show lexLt (skey ((emitRun setTime b.1 b.2.1 b.2.2, ptOut b) : PE EventRecord))
        (skey ((emitRun setTime a.1 a.2.1 a.2.2, ptOut a) : PE EventRecord)) = false
    rw [skey_emit, skey_emit]
    exact h
  have hchain : ((mergeRuns s).map
      (fun r => ((emitRun setTime r.1 r.2.1 r.2.2, ptOut r) : PE EventRecord))).Chain'
      (fun p q => canMerge (effEnd p.2) q.2.start = false) := by
    rw [List.chain'_map]
    refine chain_imp_mem (mergeRuns_chain s) ?_
    intro a ha b hb h
    show canMerge (effEnd (ptOut a)) (ptOut b).start = false
    rw [(emit_parse ha hs).2.2.2, ptOut_start]
    exact h
  cases hr : mergeRuns s with
  | nil => rfl
  | cons r0 rs =>
    cases rs with
    | nil => rfl
    | cons r1 rs' =>
      rw [hr] at hattach hpair hchain
      have hne : ∀ a, (r0 :: r1 :: rs').map
          (fun r => emitRun setTime r.1 r.2.1 r.2.2) ≠ [a] := by
        intro a hcon
        simp at hcon
      rw [processGroup_ne_small _ hne]
      rw [hattach, sortPE_eq_self _ hpair, mergeRuns_singletons _ hchain,
        List.map_map, List.map_map]
      apply List.map_congr_left
      intro r _
      rfl

theorem processGroup_idem (g : List EventRecord) :
    processGroup id setTime (processGroup id setTime g) =
      processGroup id setTime g := by
  cases g with
  | nil => rfl
  | cons a t =>
    cases t with
    | nil => rfl
    | cons b u =>
      have hpg : processGroup id setTime (a :: b :: u) =
          (mergeRuns (sortPE ((a :: b :: u).filterMap (attachPE id)))).map
            (fun r => emitRun setTime r.1 r.2.1 r.2.2) := rfl
      rw [hpg]
      exact merged_output_fixed (fun p hp => sorted_attach_spec hp) (sortPE_pairwise _)

/-- C5: `_merge_adjacent_events` is idempotent — applying it to its own
output returns that output unchanged.  Within each key group the merged
output is key-homogeneous, already sorted by the colon-stripped start
string, its rewritten `"<start>-<end>"` time fields reparse exactly, and
no two consecutive outputs are within the 15-minute merge tolerance, so a
second pass re-forms the same groups and emits every event as a singleton
run. -/
theorem c5_merge_idempotent (events : List EventRecord) :
    mergeAdjacentEvents (mergeAdjacentEvents events) = mergeAdjacentEvents events := by
  cases events with
  | nil => rfl
  | cons e0 rest =>
    have hFkeys : ∀ k ∈ groupKeys id (e0 :: rest),
        ∀ e ∈ processGroup id setTime
          ((e0 :: rest).filter (fun a => mergeKey (id a) == k)), mergeKey e = k := by
      intro k _ e he
      refine processGroup_keys ?_ e he
      intro a ha
      simpa using List.of_mem_filter ha
    have hout : mergeAdjacentEvents (e0 :: rest) =
        (groupKeys id (e0 :: rest)).flatMap
          (fun k => processGroup id setTime
            ((e0 :: rest).filter (fun a => mergeKey (id a) == k))) := by
      show mergeCore id setTime (e0 :: rest) = _
      unfold mergeCore
      rw [if_neg (by simp)]
    rw [hout]
    cases hempty : (groupKeys id (e0 :: rest)).flatMap
        (fun k => processGroup id setTime
          ((e0 :: rest).filter (fun a => mergeKey (id a) == k))) with
    | nil => rfl
    | cons o0 os =>
      have h2 : mergeAdjacentEvents (o0 :: os) =
          (groupKeys id (o0 :: os)).flatMap
            (fun k => processGroup id setTime
              ((o0 :: os).filter (fun a => mergeKey (id a) == k))) := by
        show mergeCore id setTime (o0 :: os) = _
        unfold mergeCore
        rw [if_neg (by simp)]
      rw [h2, ← hempty]
      rw [blocks_groupKeys _ _ (groupKeys_nodup id _) hFkeys]
      have hstep : ∀ k ∈ (groupKeys id (e0 :: rest)).filter
            (fun k => !(processGroup id setTime
              ((e0 :: rest).filter (fun a => mergeKey (id a) == k))).isEmpty),
          processGroup id setTime
              (((groupKeys id (e0 :: rest)).flatMap
                (fun k => processGroup id setTime
                  ((e0 :: rest).filter (fun a => mergeKey (id a) == k)))).filter
                (fun a => mergeKey (id a) == k)) =
            processGroup id setTime
              ((e0 :: rest).filter (fun a => mergeKey (id a) == k)) := by
        intro k hk
        rw [blocks_filter _ _ (groupKeys_nodup id _) hFkeys k (List.mem_of_mem_filter hk)]
        exact processGroup_idem _
      rw [flatMap_congr_mem hstep]
      exact flatMap_filter_nonempty _ _

end Timetable
